import Mathlib

/-!
Verification development for the GridStore reader (carmen-core).

The definitions below are a shallow embedding of
src/rust-src/src/gridstore/store.rs.  Machine floats (f64) are embedded as
exact rationals; machine integers are embedded as Nat.  Helper modules of the
repository that are not part of the provided sources (common.rs, spatial.rs,
gridstore_format.rs) are modelled from the specification; each such
definition carries a doc comment that says so.
-/

/-- GridEntry from common.rs, modelled from the spec (section 3): relev is an
f64, embedded as a rational; score, x, y, id and source_phrase_hash are
machine integers, embedded as Nat. -/
structure GridEntry where
  relev : ℚ
  score : Nat
  x : Nat
  y : Nat
  id : Nat
  source_phrase_hash : Nat
deriving DecidableEq, Repr

/-- MatchEntry from common.rs, modelled from the spec (section 3): a
GridEntry plus matches_language, distance and scoredist. -/
structure MatchEntry where
  grid_entry : GridEntry
  matches_language : Bool
  distance : ℚ
  scoredist : ℚ
deriving DecidableEq, Repr

/-- MatchPhrase from common.rs, modelled from the spec (section 3). -/
inductive MatchPhrase where
  | Exact (id : Nat)
  | Range (start stop : Nat)
deriving DecidableEq, Repr

/-- MatchKey from common.rs, modelled from the spec (section 3): the language
set is a u128 bitset, embedded as Nat. -/
structure MatchKey where
  match_phrase : MatchPhrase
  lang_set : Nat
deriving DecidableEq, Repr

/-- MatchOpts from common.rs, modelled from the spec (section 3). -/
structure MatchOpts where
  zoom : Nat
  proximity : Option (Nat × Nat)
  bbox : Option (Nat × Nat × Nat × Nat)
deriving DecidableEq, Repr

/-- TypeMarker from common.rs, modelled from the spec (sections 3 and 6):
the leading key byte that partitions the key space. -/
inductive TypeMarker where
  | SinglePhrase
  | PrefixBin
deriving DecidableEq, Repr

/-- Modelled from the spec: the concrete byte value of a type marker.  The
exact values are not in the provided sources; all that matters is that the
two markers are distinct and smaller than the byte 0x7e of the reserved
~BOUNDS key. -/
def markerByte : TypeMarker → Nat
  | .SinglePhrase => 0
  | .PrefixBin => 1

/-- Coord record of gridstore_format.rs, modelled from the spec (section 3):
a morton-interleaved coordinate plus a packed list of id_comp values (high
24 bits the id, low 8 bits the source phrase hash). -/
structure Coord where
  coord : Nat
  ids : List Nat
deriving DecidableEq, Repr

/-- RelevScore bucket of gridstore_format.rs, modelled from the spec
(section 3): one relev_score byte (relev in the high 4 bits, score in the
low 4 bits) and the coords of the bucket, sorted by descending morton code
when the builder invariant holds. -/
structure RelevScore where
  relev_score : Nat
  coords : List Coord
deriving DecidableEq, Repr

/-- PhraseRecord of gridstore_format.rs, modelled from the spec (section 3):
the decoded form of one stored blob as a structured value; the byte-level
codec of gridstore_format.rs is not part of the provided sources. -/
structure PhraseRecord where
  relev_scores : List RelevScore
deriving DecidableEq, Repr

/-- One key-value pair of the underlying blobs table (struct KV in
store.rs); the key is the raw byte string, the value is the record the
blob decodes to. -/
structure KV where
  key : List Nat
  value : PhraseRecord
deriving DecidableEq, Repr

/-- Exact product of two rationals, written through mkRat so that the
kernel can evaluate it on concrete values. -/
def qmul (a b : ℚ) : ℚ := mkRat (a.num * b.num) (a.den * b.den)

theorem qmul_eq_mul (a b : ℚ) : qmul a b = a * b := by
  unfold qmul
  rw [Rat.mul_def, Rat.normalize_eq_mkRat]

/-- Modelled from the spec: relev_int_to_float of common.rs.  The spec
(section 3) quantizes relev as q = round(relev * 5) stored in 4 bits, so the
reverse map sends q to q / 5. -/
def relev_int_to_float (q : Nat) : ℚ := mkRat q 5

theorem relev_int_to_float_eq (q : Nat) : relev_int_to_float q = (q : ℚ) / 5 := by
  unfold relev_int_to_float
  rw [Rat.mkRat_eq_div]
  norm_num

/-- The language-mismatch penalty factor 0.96 of store.rs line 198, as an
exact rational. -/
def boostFactor : ℚ := mkRat 24 25

theorem boostFactor_eq : boostFactor = 24 / 25 := by
  unfold boostFactor
  rw [Rat.mkRat_eq_div]
  norm_num

/-- Even-position bit extraction with an explicit iteration bound; sixteen
rounds cover a full u32 morton code. -/
def evenBitsGo : Nat → Nat → Nat
  | 0, _ => 0
  | fuel + 1, n => n % 2 + 2 * evenBitsGo fuel (n / 4)

/-- Even-position bits of a u32: bit 0, bit 2, bit 4, ... packed into
consecutive bits.  Used to undo morton interleaving. -/
def evenBits (n : Nat) : Nat := evenBitsGo 16 n

/-- Modelled from the spec: deinterleave_morton of the morton crate.  The
glossary defines the morton code as the bit-interleaved encoding of (x, y);
x occupies the even bit positions and y the odd ones, as fixed by the
morton-order test vector of the repository tests. -/
def deinterleave_morton (c : Nat) : Nat × Nat := (evenBits c, evenBits (c / 2))

/-- decode_value of store.rs (lines 35-77): flatten a phrase record into
GridEntry values in on-disk order.  The high nibble of relev_score is the
quantized relev, the low nibble the score; each id_comp packs the id in its
high 24 bits and the source phrase hash in its low 8 bits. -/
def decode_value (record : PhraseRecord) : List GridEntry :=
  record.relev_scores.flatMap (fun rs =>
    let relev := relev_int_to_float (rs.relev_score / 16)
    let score := rs.relev_score % 16
    rs.coords.flatMap (fun c =>
      let xy := deinterleave_morton c.coord
      c.ids.map (fun id_comp =>
        { relev := relev, score := score, x := xy.1, y := xy.2,
          id := id_comp / 256, source_phrase_hash := id_comp % 256 })))

/-- Lexicographic strict order on a pair, first component decides, ties fall
through to the second component. -/
def pLt {α β : Type} (la : α → α → Prop) (lb : β → β → Prop) (p q : α × β) : Prop :=
  la p.1 q.1 ∨ (p.1 = q.1 ∧ lb p.2 q.2)

instance {α β : Type} (la : α → α → Prop) (lb : β → β → Prop) [DecidableEq α]
    [DecidableRel la] [DecidableRel lb] : DecidableRel (pLt la lb) := fun p q => by
  unfold pLt; infer_instance

theorem pLt_trans {α β : Type} {la : α → α → Prop} {lb : β → β → Prop}
    (hla : ∀ a b c, la a b → la b c → la a c)
    (hlb : ∀ a b c, lb a b → lb b c → lb a c) :
    ∀ p q r, pLt la lb p q → pLt la lb q r → pLt la lb p r := by
  rintro p q r (h1 | ⟨e1, h1⟩) (h2 | ⟨e2, h2⟩)
  · exact Or.inl (hla _ _ _ h1 h2)
  · exact Or.inl (e2 ▸ h1)
  · exact Or.inl (e1 ▸ h2)
  · exact Or.inr ⟨e1.trans e2, hlb _ _ _ h1 h2⟩

theorem pLt_irrefl {α β : Type} {la : α → α → Prop} {lb : β → β → Prop}
    (hla : ∀ a, ¬ la a a) (hlb : ∀ b, ¬ lb b b) : ∀ p, ¬ pLt la lb p p := by
  rintro p (h | ⟨_, h⟩)
  · exact hla _ h
  · exact hlb _ h

theorem pLt_trichot {α β : Type} {la : α → α → Prop} {lb : β → β → Prop}
    (hla : ∀ a b, la a b ∨ a = b ∨ la b a)
    (hlb : ∀ a b, lb a b ∨ a = b ∨ lb b a) :
    ∀ p q, pLt la lb p q ∨ p = q ∨ pLt la lb q p := by
  intro p q
  rcases hla p.1 q.1 with h | h | h
  · exact Or.inl (Or.inl h)
  · rcases hlb p.2 q.2 with h2 | h2 | h2
    · exact Or.inl (Or.inr ⟨h, h2⟩)
    · exact Or.inr (Or.inl (Prod.ext h h2))
    · exact Or.inr (Or.inr (Or.inr ⟨h.symm, h2⟩))
  · exact Or.inr (Or.inr (Or.inl h))

/-- Type of the composite sort key of QueueElement::sort_key (store.rs lines
217-233): (relev, scoredist, matches_language, x, y, id), with the Bool
mapped to 0 or 1 (the order Rust uses on bool). -/
abbrev SK : Type := ℚ × (ℚ × (Nat × (Nat × (Nat × Nat))))

/-- Strict lexicographic order on composite sort keys, matching the derived
tuple ordering Rust uses in the priority queue. -/
def skLt : SK → SK → Prop :=
  pLt (· < ·) (pLt (· < ·) (pLt (· < ·) (pLt (· < ·) (pLt (· < ·) (· < ·)))))

instance : DecidableRel skLt := by unfold skLt; infer_instance

/-- Non-strict comparison derived from skLt the way Rust derives ge from a
total order: a is at most b when b is not strictly below a. -/
def skLe (a b : SK) : Prop := ¬ skLt b a

instance : DecidableRel skLe := by unfold skLe; infer_instance

theorem skLt_trans : ∀ {a b c : SK}, skLt a b → skLt b c → skLt a c := by
  have h : ∀ a b c, skLt a b → skLt b c → skLt a c := by
    unfold skLt
    refine pLt_trans (fun _ _ _ => lt_trans) ?_
    refine pLt_trans (fun _ _ _ => lt_trans) ?_
    refine pLt_trans (fun _ _ _ => lt_trans) ?_
    refine pLt_trans (fun _ _ _ => lt_trans) ?_
    exact pLt_trans (fun _ _ _ => lt_trans) (fun _ _ _ => lt_trans)
  exact fun {a b c} => h a b c

theorem skLt_irrefl : ∀ (a : SK), ¬ skLt a a := by
  unfold skLt
  refine pLt_irrefl (fun _ => lt_irrefl _) ?_
  refine pLt_irrefl (fun _ => lt_irrefl _) ?_
  refine pLt_irrefl (fun _ => lt_irrefl _) ?_
  refine pLt_irrefl (fun _ => lt_irrefl _) ?_
  exact pLt_irrefl (fun _ => lt_irrefl _) (fun _ => lt_irrefl _)

theorem skLt_trichot : ∀ (a b : SK), skLt a b ∨ a = b ∨ skLt b a := by
  unfold skLt
  refine pLt_trichot (fun _ _ => lt_trichotomy _ _) ?_
  refine pLt_trichot (fun _ _ => lt_trichotomy _ _) ?_
  refine pLt_trichot (fun _ _ => lt_trichotomy _ _) ?_
  refine pLt_trichot (fun _ _ => lt_trichotomy _ _) ?_
  exact pLt_trichot (fun _ _ => lt_trichotomy _ _) (fun _ _ => lt_trichotomy _ _)

theorem skLt_asymm {a b : SK} (h : skLt a b) : ¬ skLt b a := fun h2 =>
  skLt_irrefl a (skLt_trans h h2)

theorem skLe_total (a b : SK) : skLe a b ∨ skLe b a := by
  rcases skLt_trichot a b with h | h | h
  · exact Or.inl (skLt_asymm h)
  · exact Or.inl (h ▸ skLt_irrefl a)
  · exact Or.inr (skLt_asymm h)

theorem skLe_trans {a b c : SK} (h1 : skLe a b) (h2 : skLe b c) : skLe a c := by
  intro h
  rcases skLt_trichot b c with hb | hb | hb
  · exact h1 (skLt_trans hb h)
  · subst hb; exact h1 h
  · exact h2 hb

theorem skLt_of_skLe_of_ne {a b : SK} (h : skLe a b) (hne : a ≠ b) : skLt a b := by
  rcases skLt_trichot a b with h1 | h1 | h1
  · exact h1
  · exact absurd h1 hne
  · exact absurd h1 h

theorem skLe_of_skLt {a b : SK} (h : skLt a b) : skLe a b := skLt_asymm h

theorem skLe_refl (a : SK) : skLe a a := skLt_irrefl a

/-- QueueElement::sort_key of store.rs (lines 217-233): the composite rank
of the head entry of a queue element. -/
def sortKey (e : MatchEntry) : SK :=
  (e.grid_entry.relev, (e.scoredist, (e.matches_language.toNat,
    (e.grid_entry.x, (e.grid_entry.y, e.grid_entry.id)))))

/-- Worker of the consecutive grouping: carry the key of the open group and
its members in reverse. -/
def sgGo {α β : Type} [DecidableEq β] (f : α → β) (key : β) (acc : List α) :
    List α → List (β × List α)
  | [] => [(key, acc.reverse)]
  | x :: xs =>
    if f x = key then sgGo f key (x :: acc) xs
    else (key, acc.reverse) :: sgGo f (f x) [x] xs

/-- Modelled from the spec: somewhat_eager_groupby of common.rs, the
consecutive grouping of section 4.D step 2: group consecutive items whose
key agrees, keeping order. -/
def somewhat_eager_groupby {α β : Type} [DecidableEq β] (f : α → β) :
    List α → List (β × List α)
  | [] => []
  | a :: rest => sgGo f (f a) [a] rest

/-- One step of the k-way merge: among the heads of the lists, select the
one that is least under the strict comparator, keeping the earliest list on
ties, and behead that list. -/
def pickMin {α : Type} (lt : α → α → Bool) : List (List α) → Option (α × List (List α))
  | [] => none
  | [] :: rest =>
    match pickMin lt rest with
    | none => none
    | some (b, rest2) => some (b, [] :: rest2)
  | (a :: as) :: rest =>
    match pickMin lt rest with
    | none => some (a, as :: rest)
    | some (b, rest2) => if lt b a then some (b, (a :: as) :: rest2) else some (a, as :: rest)

theorem pickMin_totalLen {α : Type} (lt : α → α → Bool) :
    ∀ (ls : List (List α)) (a : α) (rest : List (List α)),
      pickMin lt ls = some (a, rest) →
      (rest.map List.length).sum + 1 = (ls.map List.length).sum := by
  intro ls
  induction ls with
  | nil => intro a rest h; simp [pickMin] at h
  | cons l ls2 ih =>
    intro a rest2 h
    match l with
    | [] =>
      simp only [pickMin] at h
      match hrec : pickMin lt ls2 with
      | none => rw [hrec] at h; simp at h
      | some (b, tail) =>
        rw [hrec] at h
        simp only [Option.some.injEq, Prod.mk.injEq] at h
        obtain ⟨rfl, rfl⟩ := h
        have := ih _ _ hrec
        simp only [List.map_cons, List.sum_cons, List.length_nil]
        omega
    | x :: xs =>
      simp only [pickMin] at h
      match hrec : pickMin lt ls2 with
      | none =>
        rw [hrec] at h
        simp only [Option.some.injEq, Prod.mk.injEq] at h
        obtain ⟨rfl, rfl⟩ := h
        simp only [List.map_cons, List.sum_cons, List.length_cons]
        omega
      | some (b, tail) =>
        rw [hrec] at h
        by_cases hlt : lt b x
        · simp only [hlt, if_true, Option.some.injEq, Prod.mk.injEq] at h
          obtain ⟨rfl, rfl⟩ := h
          have := ih _ _ hrec
          simp only [List.map_cons, List.sum_cons, List.length_cons] at *
          omega
        · simp only [hlt, if_false, Option.some.injEq, Prod.mk.injEq] at h
          obtain ⟨rfl, rfl⟩ := h
          simp only [List.map_cons, List.sum_cons, List.length_cons]
          omega

/-- Fuelled k-way merge worker; every step consumes exactly one element, so
the total length is enough fuel. -/
def kmergeGo {α : Type} (lt : α → α → Bool) : Nat → List (List α) → List α
  | 0, _ => []
  | fuel + 1, ls =>
    match pickMin lt ls with
    | none => []
    | some (a, rest) => a :: kmergeGo lt fuel rest

/-- Modelled from the spec: kmerge_by of itertools as used in store.rs line
176: repeatedly emit the least remaining head under the strict comparator. -/
def kmergeBy {α : Type} (lt : α → α → Bool) (ls : List (List α)) : List α :=
  kmergeGo lt ((ls.map List.length).sum) ls

/-- Modelled from the spec: tile_dist of spatial.rs, the Chebyshev
(max-axis) distance on the integer tile grid (section 4.C). -/
def tile_dist (px py x y : Nat) : ℚ := (max (Nat.dist px x) (Nat.dist py y) : ℚ)

/-- Modelled from the spec: bbox_filter of spatial.rs (section 4.C): keep
the coords whose deinterleaved coordinates lie inside the inclusive box
(minX, minY, maxX, maxY), preserving order. -/
def bbox_filter (coords : List Coord) (bbox : Nat × Nat × Nat × Nat) : List Coord :=
  coords.filter (fun c =>
    let xy := deinterleave_morton c.coord
    decide (bbox.1 ≤ xy.1 ∧ xy.1 ≤ bbox.2.2.1 ∧ bbox.2.1 ≤ xy.2 ∧ xy.2 ≤ bbox.2.2.2))

/-- Modelled from the spec: proximity of spatial.rs (section 4.C): a pure
pass-through, downstream scoring uses the point. -/
def proximity (coords : List Coord) (prox_pt : Nat × Nat) : List Coord :=
  match prox_pt with
  | _ => coords

/-- Modelled from the spec: bbox_proximity_filter of spatial.rs (section
4.C): the composition of the bbox filter and the proximity pass-through. -/
def bbox_proximity_filter (coords : List Coord) (bbox : Nat × Nat × Nat × Nat)
    (prox_pt : Nat × Nat) : List Coord :=
  proximity (bbox_filter coords bbox) prox_pt

/-- Intermediate tuple built inside decode_matching_value (store.rs line
172): per-coord distance, radius flag, score, scoredist, coordinates and
the coord object whose ids are expanded later. -/
structure CoordTuple where
  distance : ℚ
  within_radius : Bool
  score : Nat
  scoredist : ℚ
  x : Nat
  y : Nat
  coords_obj : Coord
deriving DecidableEq, Repr

/-- decode_matching_value of store.rs (lines 79-215).  The analytic forms of
proximity_radius and scoredist of spatial.rs are not part of the provided
sources and not fixed by the spec, so they are taken as parameters pr_fn
(zoom, coalesce_radius) and sd_fn (zoom, distance, score, coalesce_radius).
Buckets are decoded in on-disk order, consecutive buckets of equal relev are
grouped, per-score coord streams pass the spatial filter and are k-way
merged by strictly descending scoredist, and ids are expanded into
MatchEntry values with the language boost of line 195. -/
def decode_matching_value (pr_fn : Nat → ℚ → ℚ) (sd_fn : Nat → ℚ → Nat → ℚ → ℚ)
    (record : PhraseRecord) (match_opts : MatchOpts) (matches_language : Bool)
    (coalesce_radius : ℚ) : List MatchEntry :=
  let relevs := record.relev_scores.map (fun rs =>
    (relev_int_to_float (rs.relev_score / 16), rs.relev_score % 16, rs))
  let groups := somewhat_eager_groupby (fun t => t.1) relevs
  groups.flatMap (fun g =>
    let relev := g.1
    let coords_per_score := g.2.map (fun t =>
      let score := t.2.1
      let rs := t.2.2
      let coords :=
        match match_opts.bbox, match_opts.proximity with
        | none, none => rs.coords
        | some bbox, none => bbox_filter rs.coords bbox
        | none, some prox_pt => proximity rs.coords prox_pt
        | some bbox, some prox_pt => bbox_proximity_filter rs.coords bbox prox_pt
      coords.map (fun c =>
        let xy := deinterleave_morton c.coord
        match match_opts.proximity with
        | some prox_pt =>
          let d := tile_dist prox_pt.1 prox_pt.2 xy.1 xy.2
          ({ distance := d,
             within_radius := decide (d ≤ pr_fn match_opts.zoom coalesce_radius),
             score := score,
             scoredist := sd_fn match_opts.zoom d score coalesce_radius,
             x := xy.1, y := xy.2, coords_obj := c } : CoordTuple)
        | none =>
          ({ distance := 0, within_radius := false, score := score,
             scoredist := (score : ℚ), x := xy.1, y := xy.2, coords_obj := c } : CoordTuple)))
    let all_coords := kmergeBy (fun (a b : CoordTuple) => decide (b.scoredist < a.scoredist)) coords_per_score
    all_coords.flatMap (fun ct =>
      ct.coords_obj.ids.map (fun id_comp =>
        { grid_entry :=
            { relev := qmul relev (if matches_language || ct.within_radius then 1 else boostFactor),
              score := ct.score, x := ct.x, y := ct.y,
              id := id_comp / 256, source_phrase_hash := id_comp % 256 },
          matches_language := matches_language,
          distance := ct.distance,
          scoredist := ct.scoredist })))

/-- Big-endian 4-byte encoding of a u32 phrase id, as written into keys. -/
def be32 (n : Nat) : List Nat :=
  [n / 2 ^ 24 % 256, n / 2 ^ 16 % 256, n / 2 ^ 8 % 256, n % 256]

/-- Minimal big-endian byte string of a natural number; the empty string for
zero.  Used for the trailing language segment of keys (leading zero bytes
of the 16-byte big-endian form are stripped, per the decode in store.rs
lines 415-424). -/
def beBytesGo : Nat → Nat → List Nat
  | 0, _ => []
  | fuel + 1, n => if n = 0 then [] else beBytesGo fuel (n / 256) ++ [n % 256]

def beBytes (n : Nat) : List Nat := beBytesGo 16 n

/-- Big-endian value of a byte string. -/
def beVal (bytes : List Nat) : Nat := bytes.foldl (fun acc b => acc * 256 + b) 0

/-- The all-ones u128, the decode of a zero-length language segment
(store.rs line 418: zero length is the shorthand for matches everything). -/
def u128MAX : Nat := 2 ^ 128 - 1

/-- Language-set decode of the key bytes after the marker and phrase id,
exactly as store.rs keys() does it (lines 415-424). -/
def decodeLangSet (bytes : List Nat) : Nat :=
  if bytes = [] then u128MAX else beVal bytes

/-- GridKey from common.rs, modelled from the spec (section 3). -/
structure GridKey where
  phrase_id : Nat
  lang_set : Nat
deriving DecidableEq, Repr

/-- Modelled from the spec: the encoded form of a GridKey (section 3):
marker byte, 4-byte big-endian phrase id, stripped big-endian language
segment. -/
def encodeGridKey (marker : TypeMarker) (key : GridKey) : List Nat :=
  markerByte marker :: (be32 key.phrase_id ++ beBytes key.lang_set)

/-- Modelled from the spec: MatchKey::matches_language of common.rs
(section 4.F step 3): non-zero bitwise AND of the query language set with
the decoded key language set; parsing fails on a key shorter than the
marker plus phrase id. -/
def matches_language (query_lang : Nat) (key : List Nat) : Except Unit Bool :=
  if key.length < 5 then .error ()
  else .ok (decide (Nat.land query_lang (decodeLangSet (key.drop 5)) ≠ 0))

/-- Modelled from the spec: MatchKey::matches_key of common.rs (section 4.F
step 3): a key matches when it bears the requested marker and its phrase id
lies in the fetch range; a key with the right marker but too short to hold
a phrase id fails to parse (the KeyMismatch case of section 7). -/
def matches_key (marker : TypeMarker) (fetch_start fetch_stop : Nat)
    (key : List Nat) : Except Unit Bool :=
  match key with
  | [] => .ok false
  | b :: rest =>
    if b ≠ markerByte marker then .ok false
    else if rest.length < 4 then .error ()
    else .ok (decide (fetch_start ≤ beVal (rest.take 4) ∧ beVal (rest.take 4) < fetch_stop))

/-- Byte-string comparison used by the ordered key-value store: shortlex on
equal prefixes, a strict prefix sorts first. -/
def leBytes : List Nat → List Nat → Bool
  | [], _ => true
  | _ :: _, [] => false
  | a :: as, b :: bs => if a < b then true else if b < a then false else leBytes as bs

/-- Insert one key-value pair into a list sorted by key bytes. -/
def insertKV (kv : KV) : List KV → List KV
  | [] => [kv]
  | x :: xs => if leBytes kv.key x.key then kv :: x :: xs else x :: insertKV kv xs

/-- Sort the blobs table by key bytes, the ORDER BY of the scan query in
store.rs line 354. -/
def sortKVs : List KV → List KV
  | [] => []
  | x :: xs => insertKV x (sortKVs xs)

/-- GridStore of store.rs (lines 19-32): the blobs table, the bin-boundary
set and the open options. -/
structure GridStore where
  store : List KV
  bin_boundaries : List Nat
  zoom : Nat
  type_id : Nat
  coalesce_radius : ℚ
  bboxes : List (Nat × Nat × Nat × Nat)
  max_score : ℚ

/-- Fetch-range and marker selection of streaming_get_matching (store.rs
lines 335-344): Exact(id) becomes the range from id to id+1 with the
SinglePhrase marker; a range whose endpoints are both bin boundaries uses
the PrefixBin marker, any other range falls back to SinglePhrase. -/
def fetchParams (bins : List Nat) (mp : MatchPhrase) : Nat × Nat × TypeMarker :=
  match mp with
  | .Exact id => (id, id + 1, .SinglePhrase)
  | .Range s e =>
    if s ∈ bins ∧ e ∈ bins then (s, e, .PrefixBin) else (s, e, .SinglePhrase)

/-- Modelled from the spec: MatchKey::write_start_to of common.rs (section
4.F step 2): the lower-bound key of the scan, marker byte followed by the
big-endian fetch start. -/
def dbStartKey (marker : TypeMarker) (fetch_start : Nat) : List Nat :=
  markerByte marker :: be32 fetch_start

/-- The ascending key scan of store.rs lines 353-356: all pairs of the
sorted blobs table whose key is at least the lower bound, in key order. -/
def dbScan (store : List KV) (db_key : List Nat) : List KV :=
  (sortKVs store).filter (fun kv => leBytes db_key kv.key)

/-- Per-record streams collected by the scan loop of streaming_get_matching
(store.rs lines 360-371): stop at the first key outside the fetch range,
fail (the Rust code unwraps, hence panics) when a scanned key cannot be
parsed, and decode each surviving record under its own matches_language
flag. -/
def collectStreams (pr_fn : Nat → ℚ → ℚ) (sd_fn : Nat → ℚ → Nat → ℚ → ℚ)
    (query_lang : Nat) (marker : TypeMarker) (fetch_start fetch_stop : Nat)
    (match_opts : MatchOpts) (coalesce_radius : ℚ) :
    List KV → Except Unit (List (List MatchEntry))
  | [] => .ok []
  | kv :: rest =>
    match matches_key marker fetch_start fetch_stop kv.key with
    | .error _ => .error ()
    | .ok false => .ok []
    | .ok true =>
      match matches_language query_lang kv.key with
      | .error _ => .error ()
      | .ok ml =>
        match collectStreams pr_fn sd_fn query_lang marker fetch_start fetch_stop
            match_opts coalesce_radius rest with
        | .error _ => .error ()
        | .ok streams =>
          .ok (decode_matching_value pr_fn sd_fn kv.value match_opts ml coalesce_radius
            :: streams)

/-- QueueElement of store.rs (lines 217-220): the head entry together with
the rest of the record iterator, here a finite list. -/
abbrev QE : Type := MatchEntry × List MatchEntry

/-- Sort key of a queue element: the composite rank of its head entry. -/
def qKey (qe : QE) : SK := sortKey qe.1

/-- Select a minimal element of the queue under the composite rank (the
peek_min of the MinMaxHeap), returning it with the remaining elements; the
earliest minimal element is chosen. -/
def extractMin : List QE → Option (QE × List QE)
  | [] => none
  | a :: rest =>
    match extractMin rest with
    | none => some (a, [])
    | some (m, rest2) =>
      if skLt (qKey m) (qKey a) then some (m, a :: rest2) else some (a, rest)

/-- Select a maximal element of the queue under the composite rank (the
peek_max of the MinMaxHeap), returning it with the remaining elements; the
earliest maximal element is chosen. -/
def extractMax : List QE → Option (QE × List QE)
  | [] => none
  | a :: rest =>
    match extractMax rest with
    | none => some (a, [])
    | some (m, rest2) =>
      if skLt (qKey a) (qKey m) then some (m, a :: rest2) else some (a, rest)

/-- Bounded admission loop of streaming_get_matching (store.rs lines
360-385): each nonempty record stream is pushed while the queue is below
max_values; at capacity the stream is skipped when its head is at most the
current minimum and otherwise replaces the minimum.  The peek_min unwrap of
line 375 on an empty queue is the panic case, modelled as none. -/
def admitLoop (maxV : Nat) : List (List MatchEntry) → List QE → Option (List QE)
  | [], q => some q
  | s :: rest, q =>
    match s with
    | [] => admitLoop maxV rest q
    | e :: tail =>
      if maxV ≤ q.length then
        match extractMin q with
        | none => none
        | some (worst, q2) =>
          if skLe (sortKey e) (qKey worst) then admitLoop maxV rest q
          else admitLoop maxV rest (q2 ++ [(e, tail)])
      else admitLoop maxV rest (q ++ [(e, tail)])

theorem extractMax_eq_none : ∀ {q : List QE}, extractMax q = none → q = []
  | [], _ => rfl
  | a :: rest, h => by
    simp only [extractMax] at h
    match hrec : extractMax rest with
    | none => rw [hrec] at h; simp at h
    | some (m, rest2) => rw [hrec] at h; simp only at h; split at h <;> simp at h

theorem extractMax_perm :
    ∀ (q : List QE) (m : QE) (q2 : List QE), extractMax q = some (m, q2) →
      q.Perm (m :: q2) := by
  intro q
  induction q with
  | nil => intro m q2 h; simp [extractMax] at h
  | cons a rest ih =>
    intro m q2 h
    simp only [extractMax] at h
    match hrec : extractMax rest with
    | none =>
      rw [hrec] at h
      simp only [Option.some.injEq, Prod.mk.injEq] at h
      obtain ⟨rfl, rfl⟩ := h
      rw [extractMax_eq_none hrec]
    | some (b, rest2) =>
      rw [hrec] at h
      simp only at h
      by_cases hlt : skLt (qKey a) (qKey b)
      · rw [if_pos hlt] at h
        simp only [Option.some.injEq, Prod.mk.injEq] at h
        obtain ⟨rfl, rfl⟩ := h
        exact ((ih _ _ hrec).cons a).trans (List.Perm.swap _ a rest2)
      · rw [if_neg hlt] at h
        simp only [Option.some.injEq, Prod.mk.injEq] at h
        obtain ⟨rfl, rfl⟩ := h
        exact List.Perm.refl _

theorem extractMin_eq_none : ∀ {q : List QE}, extractMin q = none → q = []
  | [], _ => rfl
  | a :: rest, h => by
    simp only [extractMin] at h
    match hrec : extractMin rest with
    | none => rw [hrec] at h; simp at h
    | some (m, rest2) => rw [hrec] at h; simp only at h; split at h <;> simp at h

theorem extractMin_perm :
    ∀ (q : List QE) (m : QE) (q2 : List QE), extractMin q = some (m, q2) →
      q.Perm (m :: q2) := by
  intro q
  induction q with
  | nil => intro m q2 h; simp [extractMin] at h
  | cons a rest ih =>
    intro m q2 h
    simp only [extractMin] at h
    match hrec : extractMin rest with
    | none =>
      rw [hrec] at h
      simp only [Option.some.injEq, Prod.mk.injEq] at h
      obtain ⟨rfl, rfl⟩ := h
      rw [extractMin_eq_none hrec]
    | some (b, rest2) =>
      rw [hrec] at h
      simp only at h
      by_cases hlt : skLt (qKey b) (qKey a)
      · rw [if_pos hlt] at h
        simp only [Option.some.injEq, Prod.mk.injEq] at h
        obtain ⟨rfl, rfl⟩ := h
        exact ((ih _ _ hrec).cons a).trans (List.Perm.swap _ a rest2)
      · rw [if_neg hlt] at h
        simp only [Option.some.injEq, Prod.mk.injEq] at h
        obtain ⟨rfl, rfl⟩ := h
        exact List.Perm.refl _

/-- Total number of entries held by the queue, counting each head and each
tail entry. -/
def qWeight (q : List QE) : Nat := (q.map (fun qe => qe.2.length + 1)).sum

theorem qWeight_perm {q q2 : List QE} (h : q.Perm q2) : qWeight q = qWeight q2 := by
  unfold qWeight
  exact (h.map (fun (qe : QE) => qe.2.length + 1)).sum_eq

theorem qWeight_cons (qe : QE) (q : List QE) :
    qWeight (qe :: q) = qe.2.length + 1 + qWeight q := by
  simp [qWeight]

theorem qWeight_append (q1 q2 : List QE) :
    qWeight (q1 ++ q2) = qWeight q1 + qWeight q2 := by
  simp [qWeight]

/-- Fuelled drain worker; every step consumes exactly one entry of the
queue, so the total entry count is enough fuel. -/
def drainGo : Nat → List QE → List MatchEntry
  | 0, _ => []
  | fuel + 1, q =>
    match extractMax q with
    | none => []
    | some (m, q2) =>
      match m.2 with
      | [] => m.1 :: drainGo fuel q2
      | e2 :: t2 => m.1 :: drainGo fuel (q2 ++ [(e2, t2)])

/-- Drain loop of streaming_get_matching (store.rs lines 387-399): pop the
maximum, emit its head, advance its record iterator and reinsert while the
iterator is nonempty. -/
def drain (q : List QE) : List MatchEntry := drainGo (qWeight q) q

/-- Outcome of one call of streaming_get_matching: the fully drained entry
stream, or a panic (an unwrap failure inside the Rust code). -/
inductive RunResult where
  | ok (entries : List MatchEntry)
  | panicked
deriving DecidableEq, Repr

/-- streaming_get_matching of store.rs (lines 329-401), with the scan of
the ordered store made explicit: select the fetch range and marker, scan
ascending from the lower-bound key, collect one decoded stream per matching
record, run the bounded admission loop and drain the queue. -/
def streaming_get_matching (pr_fn : Nat → ℚ → ℚ) (sd_fn : Nat → ℚ → Nat → ℚ → ℚ)
    (gs : GridStore) (match_key : MatchKey) (match_opts : MatchOpts)
    (max_values : Nat) : RunResult :=
  let fp := fetchParams gs.bin_boundaries match_key.match_phrase
  let db_key := dbStartKey fp.2.2 fp.1
  let scanned := dbScan gs.store db_key
  match collectStreams pr_fn sd_fn match_key.lang_set fp.2.2 fp.1 fp.2.1
      match_opts gs.coalesce_radius scanned with
  | .error _ => .panicked
  | .ok streams =>
    match admitLoop max_values streams [] with
    | none => .panicked
    | some q => .ok (drain q)

/-- Result of the single-row sqlite lookup behind GridStore::get: a row, the
no-rows error for an absent key, or any other failure of the read. -/
inductive RowResult where
  | row (value : PhraseRecord)
  | queryReturnedNoRows
  | sqlFailure
deriving DecidableEq, Repr

/-- GridStore::get of store.rs (lines 313-327): encode the SinglePhrase key,
run the single-row lookup, and map a returned row to its decoded entries.
The Rust code matches the lookup outcome with Ok going to Some and every
Err going to None, and wraps the whole match in Ok. -/
def GridStore.get (lookup : List Nat → RowResult) (key : GridKey) :
    Except Unit (Option (List GridEntry)) :=
  let db_key := encodeGridKey .SinglePhrase key
  .ok (match lookup db_key with
       | .row value => some (decode_value value)
       | .queryReturnedNoRows => none
       | .sqlFailure => none)

/-- The single-row lookup over a pure blobs table: a row when the key is
present, the no-rows error when absent. -/
def storeLookup (store : List KV) (k : List Nat) : RowResult :=
  match store.find? (fun kv => kv.key == k) with
  | some kv => .row kv.value
  | none => .queryReturnedNoRows

/-- The kv pairs the scan loop actually processes: the prefix of the scan
for which matches_key answers true (the loop breaks at the first other
answer; an unparseable key stops it with a panic instead). -/
def visitedKVs (marker : TypeMarker) (fetch_start fetch_stop : Nat)
    (kvs : List KV) : List KV :=
  kvs.takeWhile (fun kv =>
    match matches_key marker fetch_start fetch_stop kv.key with
    | .ok true => true
    | _ => false)

theorem sgGo_mem {α β : Type} [DecidableEq β] (f : α → β) :
    ∀ (l : List α) (key : β) (acc : List α),
      (∀ t ∈ acc, f t = key) →
      ∀ k grp, (k, grp) ∈ sgGo f key acc l →
      ∀ t ∈ grp, (t ∈ acc ∨ t ∈ l) ∧ f t = k := by
  intro l
  induction l with
  | nil =>
    intro key acc hacc k grp hg t ht
    simp only [sgGo, List.mem_singleton, Prod.mk.injEq] at hg
    obtain ⟨rfl, rfl⟩ := hg
    rw [List.mem_reverse] at ht
    exact ⟨Or.inl ht, hacc t ht⟩
  | cons x xs ih =>
    intro key acc hacc k grp hg t ht
    simp only [sgGo] at hg
    by_cases hx : f x = key
    · rw [if_pos hx] at hg
      have hacc2 : ∀ t ∈ x :: acc, f t = key := by
        intro u hu
        rcases List.mem_cons.1 hu with rfl | hu
        · exact hx
        · exact hacc u hu
      have := ih key (x :: acc) hacc2 k grp hg t ht
      rcases this with ⟨hmem, hft⟩
      refine ⟨?_, hft⟩
      rcases hmem with hmem | hmem
      · rcases List.mem_cons.1 hmem with rfl | hmem
        · exact Or.inr (List.mem_cons_self _ _)
        · exact Or.inl hmem
      · exact Or.inr (List.mem_cons_of_mem _ hmem)
    · rw [if_neg hx] at hg
      rcases List.mem_cons.1 hg with hg | hg
      · rw [Prod.mk.injEq] at hg
        obtain ⟨rfl, rfl⟩ := hg
        rw [List.mem_reverse] at ht
        exact ⟨Or.inl ht, hacc t ht⟩
      · have hone : ∀ u ∈ [x], f u = f x := by
          intro u hu; rw [List.mem_singleton] at hu; rw [hu]
        have := ih (f x) [x] hone k grp hg t ht
        rcases this with ⟨hmem, hft⟩
        refine ⟨Or.inr ?_, hft⟩
        rcases hmem with hmem | hmem
        · rw [List.mem_singleton] at hmem
          rw [hmem]; exact List.mem_cons_self _ _
        · exact List.mem_cons_of_mem _ hmem

theorem somewhat_eager_groupby_mem {α β : Type} [DecidableEq β] (f : α → β)
    (l : List α) (k : β) (grp : List α) (hg : (k, grp) ∈ somewhat_eager_groupby f l)
    (t : α) (ht : t ∈ grp) : t ∈ l ∧ f t = k := by
  match l with
  | [] => simp [somewhat_eager_groupby] at hg
  | a :: rest =>
    simp only [somewhat_eager_groupby] at hg
    have hone : ∀ u ∈ [a], f u = f a := by
      intro u hu; rw [List.mem_singleton] at hu; rw [hu]
    have := sgGo_mem f rest (f a) [a] hone k grp hg t ht
    rcases this with ⟨hmem, hft⟩
    refine ⟨?_, hft⟩
    rcases hmem with hmem | hmem
    · rw [List.mem_singleton] at hmem
      rw [hmem]; exact List.mem_cons_self _ _
    · exact List.mem_cons_of_mem _ hmem

theorem pickMin_mem {α : Type} (lt : α → α → Bool) :
    ∀ (ls : List (List α)) (a : α) (rest : List (List α)),
      pickMin lt ls = some (a, rest) →
      (∃ l ∈ ls, a ∈ l) ∧ ∀ x : α, (∃ l ∈ rest, x ∈ l) → ∃ l ∈ ls, x ∈ l := by
  intro ls
  induction ls with
  | nil => intro a rest h; simp [pickMin] at h
  | cons l ls2 ih =>
    intro a rest2 h
    cases l with
    | nil =>
      simp only [pickMin] at h
      match hrec : pickMin lt ls2 with
      | none => rw [hrec] at h; simp at h
      | some (b, tail) =>
        rw [hrec] at h
        simp only [Option.some.injEq, Prod.mk.injEq] at h
        obtain ⟨rfl, rfl⟩ := h
        obtain ⟨⟨l2, hl2, hb⟩, hrest⟩ := ih _ _ hrec
        refine ⟨⟨l2, List.mem_cons_of_mem _ hl2, hb⟩, ?_⟩
        rintro x ⟨l3, hl3, hx⟩
        rcases List.mem_cons.1 hl3 with rfl | hl3
        · simp at hx
        · obtain ⟨l4, hl4, hx4⟩ := hrest x ⟨l3, hl3, hx⟩
          exact ⟨l4, List.mem_cons_of_mem _ hl4, hx4⟩
    | cons y ys =>
      simp only [pickMin] at h
      match hrec : pickMin lt ls2 with
      | none =>
        rw [hrec] at h
        simp only [Option.some.injEq, Prod.mk.injEq] at h
        obtain ⟨h1, h2⟩ := h
        rw [← h1, ← h2]
        refine ⟨⟨y :: ys, List.mem_cons_self _ _, List.mem_cons_self _ _⟩, ?_⟩
        rintro x ⟨l3, hl3, hx⟩
        rcases List.mem_cons.1 hl3 with h3 | hl3
        · exact ⟨y :: ys, List.mem_cons_self _ _, List.mem_cons_of_mem _ (h3 ▸ hx)⟩
        · exact ⟨l3, List.mem_cons_of_mem _ hl3, hx⟩
      | some (b, tail) =>
        rw [hrec] at h
        simp only at h
        by_cases hlt : lt b y
        · rw [if_pos hlt] at h
          simp only [Option.some.injEq, Prod.mk.injEq] at h
          obtain ⟨h1, h2⟩ := h
          rw [← h1, ← h2]
          obtain ⟨⟨l2, hl2, hb⟩, hrest⟩ := ih _ _ hrec
          refine ⟨⟨l2, List.mem_cons_of_mem _ hl2, hb⟩, ?_⟩
          rintro x ⟨l3, hl3, hx⟩
          rcases List.mem_cons.1 hl3 with rfl | hl3
          · exact ⟨y :: ys, List.mem_cons_self _ _, hx⟩
          · obtain ⟨l4, hl4, hx4⟩ := hrest x ⟨l3, hl3, hx⟩
            exact ⟨l4, List.mem_cons_of_mem _ hl4, hx4⟩
        · rw [if_neg hlt] at h
          simp only [Option.some.injEq, Prod.mk.injEq] at h
          obtain ⟨h1, h2⟩ := h
          rw [← h1, ← h2]
          refine ⟨⟨y :: ys, List.mem_cons_self _ _, List.mem_cons_self _ _⟩, ?_⟩
          rintro x ⟨l3, hl3, hx⟩
          rcases List.mem_cons.1 hl3 with h3 | hl3
          · exact ⟨y :: ys, List.mem_cons_self _ _, List.mem_cons_of_mem _ (h3 ▸ hx)⟩
          · exact ⟨l3, List.mem_cons_of_mem _ hl3, hx⟩

theorem kmergeGo_mem {α : Type} (lt : α → α → Bool) :
    ∀ (fuel : Nat) (ls : List (List α)) (x : α),
      x ∈ kmergeGo lt fuel ls → ∃ l ∈ ls, x ∈ l := by
  intro fuel
  induction fuel with
  | zero => intro ls x h; simp [kmergeGo] at h
  | succ n ih =>
    intro ls x h
    simp only [kmergeGo] at h
    match hrec : pickMin lt ls with
    | none => rw [hrec] at h; simp at h
    | some (a, rest) =>
      rw [hrec] at h
      obtain ⟨⟨l2, hl2, ha⟩, hrest⟩ := pickMin_mem lt ls a rest hrec
      rcases List.mem_cons.1 h with rfl | h
      · exact ⟨l2, hl2, ha⟩
      · exact hrest x (ih rest x h)

theorem kmergeBy_mem {α : Type} (lt : α → α → Bool) (ls : List (List α)) (x : α)
    (h : x ∈ kmergeBy lt ls) : ∃ l ∈ ls, x ∈ l :=
  kmergeGo_mem lt _ ls x h

theorem decode_matching_value_mem (pr_fn : Nat → ℚ → ℚ) (sd_fn : Nat → ℚ → Nat → ℚ → ℚ)
    (record : PhraseRecord) (match_opts : MatchOpts) (ml : Bool) (cr : ℚ)
    (e : MatchEntry)
    (he : e ∈ decode_matching_value pr_fn sd_fn record match_opts ml cr) :
    e.matches_language = ml ∧
    ∃ rs ∈ record.relev_scores,
      e.grid_entry.score = rs.relev_score % 16 ∧
      ∃ wr : Bool,
        e.grid_entry.relev = qmul (relev_int_to_float (rs.relev_score / 16))
          (if ml || wr then 1 else boostFactor) ∧
        (match_opts.proximity = none →
          wr = false ∧ e.distance = 0 ∧ e.scoredist = ((rs.relev_score % 16 : Nat) : ℚ)) ∧
        (∀ pt : Nat × Nat, match_opts.proximity = some pt →
          wr = decide (e.distance ≤ pr_fn match_opts.zoom cr) ∧
          e.distance = tile_dist pt.1 pt.2 e.grid_entry.x e.grid_entry.y ∧
          e.scoredist = sd_fn match_opts.zoom e.distance (rs.relev_score % 16) cr) := by
  simp only [decode_matching_value, List.mem_flatMap] at he
  obtain ⟨g, hg, he⟩ := he
  obtain ⟨ct, hct, he⟩ := he
  obtain ⟨stream, hstream, hct2⟩ := kmergeBy_mem _ _ _ hct
  simp only [List.mem_map] at hstream
  obtain ⟨t, ht, hstream_eq⟩ := hstream
  subst hstream_eq
  simp only [List.mem_map] at hct2 he
  obtain ⟨c, hc, hct_eq⟩ := hct2
  obtain ⟨id_comp, hid, he_eq⟩ := he
  have hgm := somewhat_eager_groupby_mem (fun t => t.1) _ g.1 g.2 (by rw [Prod.mk.eta]; exact hg) t ht
  obtain ⟨htrel, htkey⟩ := hgm
  simp only [List.mem_map] at htrel
  obtain ⟨rs, hrs, ht_eq⟩ := htrel
  subst ht_eq
  subst he_eq
  rcases hp : match_opts.proximity with _ | pt
  · rw [hp] at hct_eq
    simp only at hct_eq
    subst hct_eq
    refine ⟨rfl, rs, hrs, rfl, false, ?_, ?_, ?_⟩
    · simp only [← htkey]
    · intro _
      exact ⟨rfl, rfl, rfl⟩
    · intro pt hpt
      exact absurd hpt (by simp)
  · rw [hp] at hct_eq
    simp only at hct_eq
    subst hct_eq
    refine ⟨rfl, rs, hrs, rfl,
      decide (tile_dist pt.1 pt.2 (deinterleave_morton c.coord).1 (deinterleave_morton c.coord).2 ≤
        pr_fn match_opts.zoom cr), ?_, ?_, ?_⟩
    · simp only [← htkey]
    · intro hnone
      exact absurd hnone (by simp)
    · intro pt2 hpt
      simp only [Option.some.injEq] at hpt
      subst hpt
      exact ⟨rfl, rfl, rfl⟩

/-- All entries a queue holds: each head followed by its tail iterator. -/
def entriesOf (q : List QE) : List MatchEntry := q.flatMap (fun qe => qe.1 :: qe.2)

theorem drainGo_mem :
    ∀ (fuel : Nat) (q : List QE) (e : MatchEntry),
      e ∈ drainGo fuel q → e ∈ entriesOf q := by
  intro fuel
  induction fuel with
  | zero => intro q e h; simp [drainGo] at h
  | succ n ih =>
    intro q e h
    simp only [drainGo] at h
    match hrec : extractMax q with
    | none => rw [hrec] at h; simp at h
    | some (m, q2) =>
      rw [hrec] at h
      simp only at h
      have hperm : q.Perm (m :: q2) := extractMax_perm q m q2 hrec
      have hsub : ∀ x : MatchEntry, x ∈ entriesOf (m :: q2) → x ∈ entriesOf q := by
        intro x hx
        exact (hperm.flatMap_right (fun qe => qe.1 :: qe.2)).mem_iff.2 hx
      match hm : m.2 with
      | [] =>
        rw [hm] at h
        rcases List.mem_cons.1 h with rfl | h
        · exact hsub _ (by simp [entriesOf])
        · have := ih q2 e h
          refine hsub _ ?_
          simp only [entriesOf, List.flatMap_cons]
          exact List.mem_append_right _ this
      | e2 :: t2 =>
        rw [hm] at h
        rcases List.mem_cons.1 h with rfl | h
        · exact hsub _ (by simp [entriesOf])
        · have := ih _ e h
          simp only [entriesOf, List.flatMap_append, List.flatMap_cons, List.flatMap_nil,
            List.mem_append, List.append_nil, List.mem_cons] at this
          refine hsub _ ?_
          simp only [entriesOf, List.flatMap_cons, List.mem_append, List.mem_cons, hm]
          rcases this with h2 | h2 | h2
          · exact Or.inr h2
          · exact Or.inl (Or.inr (Or.inl h2))
          · exact Or.inl (Or.inr (Or.inr h2))

theorem drain_mem (q : List QE) (e : MatchEntry) (h : e ∈ drain q) : e ∈ entriesOf q :=
  drainGo_mem _ q e h

theorem admitLoop_mem :
    ∀ (maxV : Nat) (streams : List (List MatchEntry)) (q q2 : List QE),
      admitLoop maxV streams q = some q2 →
      ∀ e ∈ entriesOf q2, e ∈ entriesOf q ∨ ∃ s ∈ streams, e ∈ s := by
  intro maxV streams
  induction streams with
  | nil =>
    intro q q2 h e he
    simp only [admitLoop, Option.some.injEq] at h
    subst h
    exact Or.inl he
  | cons s rest ih =>
    intro q q2 h e he
    match hs : s with
    | [] =>
      simp only [admitLoop] at h
      rcases ih q q2 h e he with h2 | ⟨s2, hs2, hes⟩
      · exact Or.inl h2
      · exact Or.inr ⟨s2, List.mem_cons_of_mem _ hs2, hes⟩
    | e1 :: tail =>
      simp only [admitLoop] at h
      by_cases hfull : maxV ≤ q.length
      · rw [if_pos hfull] at h
        match hmin : extractMin q with
        | none => rw [hmin] at h; simp at h
        | some (worst, qrest) =>
          rw [hmin] at h
          simp only at h
          by_cases hskip : skLe (sortKey e1) (qKey worst)
          · rw [if_pos hskip] at h
            rcases ih q q2 h e he with h2 | ⟨s2, hs2, hes⟩
            · exact Or.inl h2
            · exact Or.inr ⟨s2, List.mem_cons_of_mem _ hs2, hes⟩
          · rw [if_neg hskip] at h
            rcases ih _ q2 h e he with h2 | ⟨s2, hs2, hes⟩
            · simp only [entriesOf, List.flatMap_append, List.mem_append, List.flatMap_cons,
                List.flatMap_nil, List.append_nil, List.mem_cons] at h2
              rcases h2 with h2 | h2 | h2
              · have hperm := extractMin_perm q worst qrest hmin
                refine Or.inl ?_
                refine (hperm.flatMap_right (fun qe => qe.1 :: qe.2)).mem_iff.2 ?_
                simp only [entriesOf, List.flatMap_cons, List.mem_append]
                exact Or.inr h2
              · exact Or.inr ⟨e1 :: tail, List.mem_cons_self _ _, h2 ▸ List.mem_cons_self _ _⟩
              · exact Or.inr ⟨e1 :: tail, List.mem_cons_self _ _, List.mem_cons_of_mem _ h2⟩
            · exact Or.inr ⟨s2, List.mem_cons_of_mem _ hs2, hes⟩
      · rw [if_neg hfull] at h
        rcases ih _ q2 h e he with h2 | ⟨s2, hs2, hes⟩
        · simp only [entriesOf, List.flatMap_append, List.mem_append, List.flatMap_cons,
            List.flatMap_nil, List.append_nil, List.mem_cons] at h2
          rcases h2 with h2 | h2 | h2
          · exact Or.inl (by simpa [entriesOf] using h2)
          · exact Or.inr ⟨e1 :: tail, List.mem_cons_self _ _, h2 ▸ List.mem_cons_self _ _⟩
          · exact Or.inr ⟨e1 :: tail, List.mem_cons_self _ _, List.mem_cons_of_mem _ h2⟩
        · exact Or.inr ⟨s2, List.mem_cons_of_mem _ hs2, hes⟩

/-- Fetch parameters of one query: start, stop and marker. -/
def fpOf (gs : GridStore) (mk : MatchKey) : Nat × Nat × TypeMarker :=
  fetchParams gs.bin_boundaries mk.match_phrase

/-- The kv pairs the ascending scan of one query ranges over. -/
def scannedKVs (gs : GridStore) (mk : MatchKey) : List KV :=
  dbScan gs.store (dbStartKey (fpOf gs mk).2.2 (fpOf gs mk).1)

/-- The per-record streams one query collects before admission. -/
def runStreams (pr_fn : Nat → ℚ → ℚ) (sd_fn : Nat → ℚ → Nat → ℚ → ℚ)
    (gs : GridStore) (mk : MatchKey) (opts : MatchOpts) :
    Except Unit (List (List MatchEntry)) :=
  collectStreams pr_fn sd_fn mk.lang_set (fpOf gs mk).2.2 (fpOf gs mk).1 (fpOf gs mk).2.1
    opts gs.coalesce_radius (scannedKVs gs mk)

/-- The kv pairs one query actually processes before the break. -/
def visitedOf (gs : GridStore) (mk : MatchKey) : List KV :=
  visitedKVs (fpOf gs mk).2.2 (fpOf gs mk).1 (fpOf gs mk).2.1 (scannedKVs gs mk)

theorem streaming_eq_run (pr_fn : Nat → ℚ → ℚ) (sd_fn : Nat → ℚ → Nat → ℚ → ℚ)
    (gs : GridStore) (mk : MatchKey) (opts : MatchOpts) (maxV : Nat) :
    streaming_get_matching pr_fn sd_fn gs mk opts maxV =
      match runStreams pr_fn sd_fn gs mk opts with
      | .error _ => .panicked
      | .ok streams =>
        match admitLoop maxV streams [] with
        | none => .panicked
        | some q => .ok (drain q) := rfl

theorem run_ok_elim (pr_fn : Nat → ℚ → ℚ) (sd_fn : Nat → ℚ → Nat → ℚ → ℚ)
    (gs : GridStore) (mk : MatchKey) (opts : MatchOpts) (maxV : Nat)
    (out : List MatchEntry)
    (h : streaming_get_matching pr_fn sd_fn gs mk opts maxV = .ok out) :
    ∃ streams q, runStreams pr_fn sd_fn gs mk opts = .ok streams ∧
      admitLoop maxV streams [] = some q ∧ out = drain q := by
  rw [streaming_eq_run] at h
  match hc : runStreams pr_fn sd_fn gs mk opts with
  | .error _ => rw [hc] at h; simp at h
  | .ok streams =>
    rw [hc] at h
    simp only at h
    match ha : admitLoop maxV streams [] with
    | none => rw [ha] at h; simp at h
    | some q =>
      rw [ha] at h
      simp only [RunResult.ok.injEq] at h
      exact ⟨streams, q, rfl, ha, h.symm⟩

theorem collectStreams_spec (pr_fn : Nat → ℚ → ℚ) (sd_fn : Nat → ℚ → Nat → ℚ → ℚ)
    (ql : Nat) (marker : TypeMarker) (fs fe : Nat) (opts : MatchOpts) (cr : ℚ) :
    ∀ (kvs : List KV) (streams : List (List MatchEntry)),
      collectStreams pr_fn sd_fn ql marker fs fe opts cr kvs = .ok streams →
      ∀ st ∈ streams, ∃ kv ∈ visitedKVs marker fs fe kvs, ∃ ml : Bool,
        matches_language ql kv.key = .ok ml ∧
        st = decode_matching_value pr_fn sd_fn kv.value opts ml cr := by
  intro kvs
  induction kvs with
  | nil =>
    intro streams h st hst
    simp only [collectStreams, Except.ok.injEq] at h
    subst h
    simp at hst
  | cons kv rest ih =>
    intro streams h st hst
    simp only [collectStreams] at h
    match hk : matches_key marker fs fe kv.key with
    | .error u => rw [hk] at h; simp at h
    | .ok false =>
      rw [hk] at h
      simp only [Except.ok.injEq] at h
      subst h
      simp at hst
    | .ok true =>
      rw [hk] at h
      simp only at h
      match hl : matches_language ql kv.key with
      | .error u => rw [hl] at h; simp at h
      | .ok ml =>
        rw [hl] at h
        simp only at h
        match hrec : collectStreams pr_fn sd_fn ql marker fs fe opts cr rest with
        | .error u => rw [hrec] at h; simp at h
        | .ok streams2 =>
          rw [hrec] at h
          simp only [Except.ok.injEq] at h
          subst h
          have hvis : visitedKVs marker fs fe (kv :: rest) =
              kv :: visitedKVs marker fs fe rest := by
            simp [visitedKVs, List.takeWhile_cons, hk]
          rcases List.mem_cons.1 hst with rfl | hst
          · exact ⟨kv, by rw [hvis]; exact List.mem_cons_self _ _, ml, hl, rfl⟩
          · obtain ⟨kv2, hkv2, ml2, hml2, hst2⟩ := ih streams2 hrec st hst
            exact ⟨kv2, by rw [hvis]; exact List.mem_cons_of_mem _ hkv2, ml2, hml2, hst2⟩

/-- C5: the language boost law.  Every entry a streaming query emits comes
from a record the scan visited, through decode_matching_value under the
matches_language flag of that record key, and its relev is the stored
bucket relev times the factor 0.96 exactly when matches_language and
within_radius are both false; when the query has no proximity point the
within-radius flag is false, and with a proximity point it is the
distance-within-radius test. -/
theorem language_boost_law (pr_fn : Nat → ℚ → ℚ) (sd_fn : Nat → ℚ → Nat → ℚ → ℚ)
    (gs : GridStore) (mk : MatchKey) (opts : MatchOpts) (maxV : Nat)
    (out : List MatchEntry)
    (hrun : streaming_get_matching pr_fn sd_fn gs mk opts maxV = .ok out) :
    ∀ e ∈ out, ∃ kv ∈ visitedOf gs mk,
      matches_language mk.lang_set kv.key = .ok e.matches_language ∧
      e ∈ decode_matching_value pr_fn sd_fn kv.value opts e.matches_language
        gs.coalesce_radius ∧
      ∃ rs ∈ kv.value.relev_scores, ∃ wr : Bool,
        e.grid_entry.relev = qmul (relev_int_to_float (rs.relev_score / 16))
          (if e.matches_language || wr then 1 else boostFactor) ∧
        (opts.proximity = none → wr = false) ∧
        (∀ pt : Nat × Nat, opts.proximity = some pt →
          wr = decide (e.distance ≤ pr_fn opts.zoom gs.coalesce_radius)) := by
  intro e he
  obtain ⟨streams, q, hc, ha, hout⟩ := run_ok_elim pr_fn sd_fn gs mk opts maxV out hrun
  subst hout
  have hq := drain_mem q e he
  rcases admitLoop_mem maxV streams [] q ha e hq with h0 | ⟨st, hstm, hest⟩
  · simp [entriesOf] at h0
  · obtain ⟨kv, hkv, ml, hml, hst⟩ :=
      collectStreams_spec pr_fn sd_fn mk.lang_set (fpOf gs mk).2.2 (fpOf gs mk).1
        (fpOf gs mk).2.1 opts gs.coalesce_radius (scannedKVs gs mk) streams hc st hstm
    subst hst
    obtain ⟨hmle, rs, hrs, hscore, wr, hrelev, hnone, hsome⟩ :=
      decode_matching_value_mem pr_fn sd_fn kv.value opts ml gs.coalesce_radius e hest
    subst hmle
    refine ⟨kv, hkv, hml, hest, rs, hrs, wr, hrelev, ?_, ?_⟩
    · intro hp
      exact (hnone hp).1
    · intro pt hp
      exact (hsome pt hp).1

/-- C6: with no proximity point, every emitted entry carries distance 0 and
scoredist equal to its 4-bit score converted to a rational, the
within-radius flag is false, and hence the relev carries the 0.96 factor
exactly when matches_language is false; zoom, bbox and coalesce_radius do
not enter. -/
theorem no_proximity_distance_scoredist (pr_fn : Nat → ℚ → ℚ)
    (sd_fn : Nat → ℚ → Nat → ℚ → ℚ) (gs : GridStore) (mk : MatchKey)
    (opts : MatchOpts) (maxV : Nat) (out : List MatchEntry)
    (hprox : opts.proximity = none)
    (hrun : streaming_get_matching pr_fn sd_fn gs mk opts maxV = .ok out) :
    ∀ e ∈ out,
      e.distance = 0 ∧
      e.scoredist = (e.grid_entry.score : ℚ) ∧
      ∃ kv ∈ visitedOf gs mk, ∃ rs ∈ kv.value.relev_scores,
        e.grid_entry.score = rs.relev_score % 16 ∧
        e.grid_entry.relev = qmul (relev_int_to_float (rs.relev_score / 16))
          (if e.matches_language then 1 else boostFactor) := by
  intro e he
  obtain ⟨streams, q, hc, ha, hout⟩ := run_ok_elim pr_fn sd_fn gs mk opts maxV out hrun
  subst hout
  have hq := drain_mem q e he
  rcases admitLoop_mem maxV streams [] q ha e hq with h0 | ⟨st, hstm, hest⟩
  · simp [entriesOf] at h0
  · obtain ⟨kv, hkv, ml, hml, hst⟩ :=
      collectStreams_spec pr_fn sd_fn mk.lang_set (fpOf gs mk).2.2 (fpOf gs mk).1
        (fpOf gs mk).2.1 opts gs.coalesce_radius (scannedKVs gs mk) streams hc st hstm
    subst hst
    obtain ⟨hmle, rs, hrs, hscore, wr, hrelev, hnone, hsome⟩ :=
      decode_matching_value_mem pr_fn sd_fn kv.value opts ml gs.coalesce_radius e hest
    obtain ⟨hwr, hdist, hsd⟩ := hnone hprox
    subst hwr
    refine ⟨hdist, ?_, kv, hkv, rs, hrs, hscore, ?_⟩
    · rw [hsd, hscore]
    · rw [hrelev, hmle]
      simp only [Bool.or_false]

/-- C4 counterexample: the Rust code of GridStore::get maps every error of
the single-row lookup to None, so a failing read comes back as Ok(None)
instead of Err. -/
theorem get_read_failure_counterexample :
    GridStore.get (fun _ => RowResult.sqlFailure) { phrase_id := 7, lang_set := 1 } = .ok none := rfl

/-- C4 amended: get never returns Err from the lookup; with a pure store
lookup Ok(None) is returned exactly when the encoded SinglePhrase key is
absent, and any lookup failure, including a read failure, is also reported
as Ok(None). -/
theorem get_absent_vs_failure (store : List KV) (key : GridKey) :
    (GridStore.get (storeLookup store) key = .ok none ↔
      ∀ kv ∈ store, kv.key ≠ encodeGridKey .SinglePhrase key) ∧
    (∀ lookup : List Nat → RowResult, ∀ err : Unit, GridStore.get lookup key ≠ .error err) ∧
    (∀ lookup : List Nat → RowResult,
      lookup (encodeGridKey .SinglePhrase key) = .sqlFailure →
      GridStore.get lookup key = .ok none) := by
  refine ⟨?_, ?_, ?_⟩
  · constructor
    · intro h kv hkv hkeq
      have hfind : (store.find? (fun kv2 => kv2.key == encodeGridKey .SinglePhrase key)).isSome := by
        rw [List.find?_isSome]
        exact ⟨kv, hkv, by simp [hkeq]⟩
      match hf : store.find? (fun kv2 => kv2.key == encodeGridKey .SinglePhrase key) with
      | none => rw [hf] at hfind; simp at hfind
      | some kv2 =>
        simp only [GridStore.get, storeLookup, hf, Except.ok.injEq] at h
        simp at h
    · intro h
      have hfind : store.find? (fun kv2 => kv2.key == encodeGridKey .SinglePhrase key) = none := by
        rw [List.find?_eq_none]
        intro kv hkv
        simp only [beq_iff_eq]
        exact fun heq => h kv hkv heq
      simp only [GridStore.get, storeLookup, hfind]
  · intro lookup err h
    simp only [GridStore.get] at h
    split at h <;> simp_all
  · intro lookup h
    simp only [GridStore.get, h]

theorem admitLoop_len_bound :
    ∀ (maxV : Nat) (streams : List (List MatchEntry)) (q : List QE),
      1 ≤ maxV → q.length ≤ maxV →
      ∃ q2, admitLoop maxV streams q = some q2 ∧ q2.length ≤ maxV := by
  intro maxV streams
  induction streams with
  | nil =>
    intro q h1 hlen
    exact ⟨q, rfl, hlen⟩
  | cons s rest ih =>
    intro q h1 hlen
    match s with
    | [] =>
      simp only [admitLoop]
      exact ih q h1 hlen
    | e :: tail =>
      simp only [admitLoop]
      by_cases hfull : maxV ≤ q.length
      · rw [if_pos hfull]
        match hmin : extractMin q with
        | none =>
          have := extractMin_eq_none hmin
          subst this
          simp at hfull
          omega
        | some (worst, q2) =>
          simp only
          by_cases hskip : skLe (sortKey e) (qKey worst)
          · rw [if_pos hskip]
            exact ih q h1 hlen
          · rw [if_neg hskip]
            have hperm := extractMin_perm q worst q2 hmin
            have hlen2 : q.length = q2.length + 1 := by
              rw [hperm.length_eq]; simp
            refine ih (q2 ++ [(e, tail)]) h1 ?_
            rw [List.length_append]
            simp only [List.length_singleton]
            omega
      · rw [if_neg hfull]
        refine ih (q ++ [(e, tail)]) h1 ?_
        rw [List.length_append]
        simp only [List.length_singleton]
        omega

theorem admitLoop_zero_panic :
    ∀ (streams : List (List MatchEntry)), (∃ s ∈ streams, s ≠ []) →
      admitLoop 0 streams [] = none := by
  intro streams
  induction streams with
  | nil => rintro ⟨s, hs, _⟩; simp at hs
  | cons s rest ih =>
    rintro ⟨s2, hs2, hne⟩
    match s with
    | [] =>
      simp only [admitLoop]
      rcases List.mem_cons.1 hs2 with rfl | hs2
      · exact absurd rfl hne
      · exact ih ⟨s2, hs2, hne⟩
    | e :: tail =>
      simp only [admitLoop]
      rw [if_pos (by simp)]
      simp [extractMin]

/-- C10: with max_values = 0 and at least one scanned record whose decode
stream is nonempty, the admission loop takes the full-queue branch on the
empty queue and the peek_min unwrap panics; for max_values at least 1 the
unwrap never fails and the queue never holds more than max_values elements
at any point of the admission loop. -/
theorem admission_queue_bound_and_zero_panic (pr_fn : Nat → ℚ → ℚ)
    (sd_fn : Nat → ℚ → Nat → ℚ → ℚ) (gs : GridStore) (mk : MatchKey)
    (opts : MatchOpts) :
    (∀ streams, runStreams pr_fn sd_fn gs mk opts = .ok streams →
      (∃ s ∈ streams, s ≠ []) →
      streaming_get_matching pr_fn sd_fn gs mk opts 0 = .panicked) ∧
    (∀ maxV, 1 ≤ maxV → ∀ (streams : List (List MatchEntry)) (q : List QE),
      q.length ≤ maxV →
      ∃ q2, admitLoop maxV streams q = some q2 ∧ q2.length ≤ maxV) := by
  constructor
  · intro streams hc hne
    rw [streaming_eq_run, hc]
    simp only
    rw [admitLoop_zero_panic streams hne]
  · intro maxV h1 streams q hlen
    exact admitLoop_len_bound maxV streams q h1 hlen

/-- A proximity radius function for concrete runs: radius zero. -/
def prZero : Nat → ℚ → ℚ := fun _ _ => 0

/-- A scoredist function for concrete runs: the score itself. -/
def sdScore : Nat → ℚ → Nat → ℚ → ℚ := fun _ _ s _ => (s : ℚ)

/-- A one-bucket record with two coords, morton codes 9 = (1, 2) and
6 = (2, 1), in descending morton order as the builder writes them, with one
id each.  relev_score 83 = 0x53: relev 1.0, score 3. -/
def recA : PhraseRecord :=
  { relev_scores :=
      [{ relev_score := 83,
         coords := [{ coord := 9, ids := [256] }, { coord := 6, ids := [512] }] }] }

/-- recA stored under the SinglePhrase key with phrase id 7, language set 1. -/
def kvA : KV := { key := [0, 0, 0, 0, 7, 1], value := recA }

def gsA : GridStore :=
  { store := [kvA], bin_boundaries := [], zoom := 6, type_id := 0,
    coalesce_radius := 0, bboxes := [], max_score := 0 }

def mkA : MatchKey := { match_phrase := .Exact 7, lang_set := 1 }

def optsA : MatchOpts := { zoom := 6, proximity := none, bbox := none }

/-- The first entry recA decodes to: coord (1, 2), id 1. -/
def entryA1 : MatchEntry :=
  { grid_entry := { relev := 1, score := 3, x := 1, y := 2, id := 1, source_phrase_hash := 0 },
    matches_language := true, distance := 0, scoredist := 3 }

/-- The second entry recA decodes to: coord (2, 1), id 2. -/
def entryA2 : MatchEntry :=
  { grid_entry := { relev := 1, score := 3, x := 2, y := 1, id := 2, source_phrase_hash := 0 },
    matches_language := true, distance := 0, scoredist := 3 }

theorem admission_queue_bound_and_zero_panic_witness :
    streaming_get_matching prZero sdScore gsA mkA optsA 0 = .panicked ∧
    ∃ q2, admitLoop 1 [[entryA1]] [] = some q2 ∧ q2.length ≤ 1 :=
  ⟨(admission_queue_bound_and_zero_panic prZero sdScore gsA mkA optsA).1
      [[entryA1, entryA2]] rfl ⟨[entryA1, entryA2], by decide, by decide⟩,
   (admission_queue_bound_and_zero_panic prZero sdScore gsA mkA optsA).2 1 (by decide)
      [[entryA1]] [] (by decide)⟩

theorem insertKV_perm (kv : KV) : ∀ (l : List KV), (insertKV kv l).Perm (kv :: l) := by
  intro l
  induction l with
  | nil => simp [insertKV]
  | cons x xs ih =>
    simp only [insertKV]
    by_cases h : leBytes kv.key x.key
    · rw [if_pos h]
    · rw [if_neg h]
      exact (ih.cons x).trans (List.Perm.swap kv x xs)

theorem sortKVs_perm : ∀ (l : List KV), (sortKVs l).Perm l := by
  intro l
  induction l with
  | nil => simp [sortKVs]
  | cons x xs ih =>
    simp only [sortKVs]
    exact (insertKV_perm x (sortKVs xs)).trans (ih.cons x)

theorem scannedKVs_sub (gs : GridStore) (mk : MatchKey) :
    ∀ kv ∈ scannedKVs gs mk, kv ∈ gs.store := by
  intro kv h
  simp only [scannedKVs, dbScan] at h
  exact (sortKVs_perm gs.store).mem_iff.1 (List.mem_of_mem_filter h)

/-- Well-formed stored key, the reader assumption of spec section 4.G: all
bytes are bytes, and any key short of a marker plus phrase id does not bear
a marker byte at all (such as the reserved ~BOUNDS key). -/
def wellFormedKey (k : List Nat) : Prop :=
  (∀ b ∈ k, b < 256) ∧
    (5 ≤ k.length ∨
      (k.head? ≠ some (markerByte .SinglePhrase) ∧ k.head? ≠ some (markerByte .PrefixBin)))

instance (k : List Nat) : Decidable (wellFormedKey k) := by
  unfold wellFormedKey; infer_instance

theorem matches_key_empty_range (marker : TypeMarker) (s : Nat) (k : List Nat)
    (hwf : wellFormedKey k) : matches_key marker s s k = .ok false := by
  match k with
  | [] => rfl
  | b :: rest =>
    simp only [matches_key]
    by_cases hb : b = markerByte marker
    · rw [if_neg (by simp [hb])]
      have hlen : 5 ≤ (b :: rest).length := by
        rcases hwf.2 with h | ⟨h1, h2⟩
        · exact h
        · cases marker
          · exact absurd (by simp [hb]) h1
          · exact absurd (by simp [hb]) h2
      rw [if_neg (by simp at hlen ⊢; omega)]
      have : ¬ (s ≤ beVal (rest.take 4) ∧ beVal (rest.take 4) < s) := by omega
      simp [this]
    · rw [if_pos (by simp [hb])]

theorem collectStreams_empty_range (pr_fn : Nat → ℚ → ℚ)
    (sd_fn : Nat → ℚ → Nat → ℚ → ℚ) (ql : Nat) (marker : TypeMarker) (s : Nat)
    (opts : MatchOpts) (cr : ℚ) :
    ∀ (kvs : List KV), (∀ kv ∈ kvs, wellFormedKey kv.key) →
      collectStreams pr_fn sd_fn ql marker s s opts cr kvs = .ok [] := by
  intro kvs hwf
  match kvs with
  | [] => rfl
  | kv :: rest =>
    simp only [collectStreams]
    rw [matches_key_empty_range marker s kv.key (hwf kv (List.mem_cons_self _ _))]

/-- C9: a Range query with start = end returns Ok with an iterator that
yields nothing, and no panic occurs: on a store of well-formed keys the
scan stops at the first key it sees, whatever the options and max_values. -/
theorem empty_range_yields_nothing (pr_fn : Nat → ℚ → ℚ)
    (sd_fn : Nat → ℚ → Nat → ℚ → ℚ) (gs : GridStore) (lang : Nat)
    (opts : MatchOpts) (maxV : Nat) (s : Nat)
    (hwf : ∀ kv ∈ gs.store, wellFormedKey kv.key) :
    streaming_get_matching pr_fn sd_fn gs
      { match_phrase := .Range s s, lang_set := lang } opts maxV = .ok [] := by
  rw [streaming_eq_run]
  have hfp : (fpOf gs { match_phrase := .Range s s, lang_set := lang }) =
      (s, s, (fpOf gs { match_phrase := .Range s s, lang_set := lang }).2.2) := by
    simp only [fpOf, fetchParams]
    split <;> rfl
  have hcol : runStreams pr_fn sd_fn gs { match_phrase := .Range s s, lang_set := lang } opts = .ok [] := by
    unfold runStreams
    rw [hfp]
    simp only
    refine collectStreams_empty_range pr_fn sd_fn lang _ s opts gs.coalesce_radius _ ?_
    intro kv hkv
    exact hwf kv (scannedKVs_sub gs _ kv hkv)
  rw [hcol]
  simp only [admitLoop]
  rfl

theorem empty_range_yields_nothing_witness :
    streaming_get_matching prZero sdScore gsA
      { match_phrase := .Range 7 7, lang_set := 1 } optsA 5 = .ok [] :=
  empty_range_yields_nothing prZero sdScore gsA 1 optsA 5 7 (by decide)

/-- A malformed stored key: it bears the SinglePhrase marker byte but is too
short to hold a phrase id. -/
def kvBad : KV := { key := [0, 5], value := { relev_scores := [] } }

def gsBad : GridStore :=
  { store := [kvBad], bin_boundaries := [], zoom := 6, type_id := 0,
    coalesce_radius := 0, bboxes := [], max_score := 0 }

/-- C8 counterexample: on a store holding a key that cannot be parsed as a
GridKey inside the scanned range, streaming_get_matching panics (the Rust
code unwraps the parse result) instead of surfacing a CorruptRecord error
to the caller. -/
theorem scan_key_parse_counterexample :
    streaming_get_matching prZero sdScore gsBad mkA optsA 100 = .panicked := by decide

/-- A parse failure anywhere the scan loop reaches propagates to the whole
collection: every key before it that does not break the loop (matches_key
not answering false) is either itself a panic or lets the loop continue to
the malformed key. -/
theorem collectStreams_error_of_bad (pr_fn : Nat → ℚ → ℚ)
    (sd_fn : Nat → ℚ → Nat → ℚ → ℚ) (ql : Nat) (marker : TypeMarker)
    (fs fe : Nat) (opts : MatchOpts) (cr : ℚ) :
    ∀ (pre : List KV) (kv : KV) (rest : List KV),
      (∀ k ∈ pre, matches_key marker fs fe k.key ≠ .ok false) →
      matches_key marker fs fe kv.key = .error () →
      collectStreams pr_fn sd_fn ql marker fs fe opts cr (pre ++ kv :: rest)
        = .error () := by
  intro pre
  induction pre with
  | nil =>
    intro kv rest _ hbad
    simp only [List.nil_append, collectStreams, hbad]
  | cons k pre2 ih =>
    intro kv rest hpre hbad
    simp only [List.cons_append, collectStreams]
    match hk : matches_key marker fs fe k.key with
    | .error u => rfl
    | .ok false => exact absurd hk (hpre k (List.mem_cons_self _ _))
    | .ok true =>
      simp only
      match hl : matches_language ql k.key with
      | .error u => rfl
      | .ok ml =>
        simp only [List.append_eq]
        rw [ih kv rest (fun x hx => hpre x (List.mem_cons_of_mem _ hx)) hbad]

/-- C8 amended: when the ascending scan encounters a key that bears the
requested marker but cannot be parsed as a GridKey — the malformed key sits
anywhere after a prefix of scanned keys none of which breaks the loop — the
call panics (the Result of the parse is unwrapped); it does not return a
CorruptRecord error and does not skip the key. -/
theorem scan_key_parse_panics (pr_fn : Nat → ℚ → ℚ)
    (sd_fn : Nat → ℚ → Nat → ℚ → ℚ) (gs : GridStore) (mk : MatchKey)
    (opts : MatchOpts) (maxV : Nat) (pre : List KV) (kv : KV) (rest : List KV)
    (hscan : scannedKVs gs mk = pre ++ kv :: rest)
    (hpre : ∀ k ∈ pre,
      matches_key (fpOf gs mk).2.2 (fpOf gs mk).1 (fpOf gs mk).2.1 k.key ≠ .ok false)
    (hmk : kv.key.head? = some (markerByte (fpOf gs mk).2.2))
    (hshort : kv.key.length < 5) :
    streaming_get_matching pr_fn sd_fn gs mk opts maxV = .panicked := by
  rw [streaming_eq_run]
  have hkey : matches_key (fpOf gs mk).2.2 (fpOf gs mk).1 (fpOf gs mk).2.1 kv.key
      = .error () := by
    match hk : kv.key with
    | [] => rw [hk] at hmk; simp at hmk
    | b :: r =>
      rw [hk] at hmk hshort
      simp only [List.head?, Option.some.injEq] at hmk
      simp only [List.length_cons] at hshort
      simp only [matches_key]
      rw [if_neg (by simp [hmk]), if_pos (by omega)]
  have hcol : runStreams pr_fn sd_fn gs mk opts = .error () := by
    unfold runStreams
    rw [hscan]
    exact collectStreams_error_of_bad pr_fn sd_fn mk.lang_set (fpOf gs mk).2.2
      (fpOf gs mk).1 (fpOf gs mk).2.1 opts gs.coalesce_radius pre kv rest hpre hkey
  rw [hcol]

/-- A malformed key that sorts after the valid key kvA inside the same
scan: it bears the SinglePhrase marker byte but is one byte short of a
phrase id. -/
def kvBad2 : KV := { key := [0, 0, 0, 8], value := { relev_scores := [] } }

/-- A store whose ascending scan for phrase 7 first yields the valid record
kvA and then hits the malformed key. -/
def gsBad2 : GridStore :=
  { store := [kvA, kvBad2], bin_boundaries := [], zoom := 6, type_id := 0,
    coalesce_radius := 0, bboxes := [], max_score := 0 }

theorem scan_key_parse_panics_witness :
    streaming_get_matching prZero sdScore gsBad2 mkA optsA 3 = .panicked :=
  scan_key_parse_panics prZero sdScore gsBad2 mkA optsA 3 [kvA] kvBad2 []
    (by decide)
    (by
      intro k hk
      rw [List.mem_singleton] at hk
      subst hk
      intro hc
      have hok : matches_key (fpOf gsBad2 mkA).2.2 (fpOf gsBad2 mkA).1
          (fpOf gsBad2 mkA).2.1 kvA.key = .ok true := rfl
      rw [hok] at hc
      simp at hc)
    (by decide) (by decide)

/-- Non-strict comparison of full entries under the composite rank: a is at
least b.  The later entry of a correctly ordered stream is entGe-below the
earlier one. -/
def entGe (a b : MatchEntry) : Prop := skLe (sortKey b) (sortKey a)

instance : DecidableRel entGe := by unfold entGe; infer_instance

/-- Insert an entry into a list sorted by descending composite rank. -/
def insertDesc (e : MatchEntry) : List MatchEntry → List MatchEntry
  | [] => [e]
  | x :: xs => if skLe (sortKey x) (sortKey e) then e :: x :: xs else x :: insertDesc e xs

/-- Sort entries by descending composite rank; the top K of a result list
is the first K elements of its sortDesc. -/
def sortDesc : List MatchEntry → List MatchEntry
  | [] => []
  | x :: xs => insertDesc x (sortDesc xs)

/-- C1 counterexample: a single one-bucket record holding coords (1, 2) and
(2, 1) in descending morton order.  With max_values = 1 the first
min(1, N) = 1 entries of the stream are not the top 1 of the unbounded
result under the composite rank: the record stream is morton-ordered, and
morton order disagrees with the (x, y, id) tie-break of the rank. -/
theorem streaming_topk_counterexample :
    streaming_get_matching prZero sdScore gsA mkA optsA 1 = .ok [entryA1, entryA2] ∧
    streaming_get_matching prZero sdScore gsA mkA optsA 18446744073709551615 =
      .ok [entryA1, entryA2] ∧
    List.take (min 1 [entryA1, entryA2].length) [entryA1, entryA2] ≠
      List.take (min 1 [entryA1, entryA2].length) (sortDesc [entryA1, entryA2]) := by
  refine ⟨by decide, by decide, by decide⟩

/-- C2 counterexample: the same record; the iterator yields the (1, 2)
entry before the (2, 1) entry, and the composite rank of the later entry is
strictly greater than that of the earlier one. -/
theorem streaming_order_counterexample :
    streaming_get_matching prZero sdScore gsA mkA optsA 2 = .ok [entryA1, entryA2] ∧
    skLt (sortKey entryA1) (sortKey entryA2) := by
  refine ⟨by decide, by decide⟩

/-- Single-phrase record of phrase 5: relev 1.0, score 3, coord (1, 1), id 1. -/
def recB5 : PhraseRecord :=
  { relev_scores := [{ relev_score := 83, coords := [{ coord := 3, ids := [256] }] }] }

/-- Single-phrase record of phrase 6: relev 1.0, score 1, coord (1, 1), id 2. -/
def recB6 : PhraseRecord :=
  { relev_scores := [{ relev_score := 81, coords := [{ coord := 3, ids := [512] }] }] }

/-- The pre-merged prefix-bin record of the range 5 to 7: the union of
recB5 and recB6, grouped by relev and score, buckets in descending
relev_score order as the builder writes them. -/
def recBmerged : PhraseRecord :=
  { relev_scores :=
      [{ relev_score := 83, coords := [{ coord := 3, ids := [256] }] },
       { relev_score := 81, coords := [{ coord := 3, ids := [512] }] }] }

def kvB5 : KV := { key := [0, 0, 0, 0, 5, 1], value := recB5 }

def kvB6 : KV := { key := [0, 0, 0, 0, 6, 1], value := recB6 }

/-- The prefix-bin record stored under the PrefixBin marker at phrase 5. -/
def kvBbin : KV := { key := [1, 0, 0, 0, 5, 1], value := recBmerged }

def gsWithBins : GridStore :=
  { store := [kvB5, kvB6, kvBbin], bin_boundaries := [5, 7], zoom := 6, type_id := 0,
    coalesce_radius := 0, bboxes := [], max_score := 0 }

def gsNoBins : GridStore :=
  { store := [kvB5, kvB6], bin_boundaries := [], zoom := 6, type_id := 0,
    coalesce_radius := 0, bboxes := [], max_score := 0 }

def mkB : MatchKey := { match_phrase := .Range 5 7, lang_set := 1 }

/-- The entry of recB5: score 3, id 1. -/
def entryB1 : MatchEntry :=
  { grid_entry := { relev := 1, score := 3, x := 1, y := 1, id := 1, source_phrase_hash := 0 },
    matches_language := true, distance := 0, scoredist := 3 }

/-- The entry of recB6: score 1, id 2. -/
def entryB2 : MatchEntry :=
  { grid_entry := { relev := 1, score := 1, x := 1, y := 1, id := 2, source_phrase_hash := 0 },
    matches_language := true, distance := 0, scoredist := 1 }

/-- C3 counterexample: a store pair satisfying the builder invariant (the
bin record decodes to the merged union of the single-phrase records of the
range), queried over the prefix-aligned range 5 to 7 with max_values = 1:
with bins loaded the single pre-merged record is admitted whole and both
entries stream out; without bins the second record is skipped at admission
and only one entry streams out. -/
theorem bin_equivalence_counterexample :
    decode_value recBmerged = decode_value recB5 ++ decode_value recB6 ∧
    streaming_get_matching prZero sdScore gsWithBins mkB optsA 1 =
      .ok [entryB1, entryB2] ∧
    streaming_get_matching prZero sdScore gsNoBins mkB optsA 1 = .ok [entryB1] ∧
    ([entryB1, entryB2] : List MatchEntry) ≠ [entryB1] := by
  refine ⟨by decide, by decide, by decide, by decide⟩

theorem language_boost_law_witness :
    ∃ kv ∈ visitedOf gsA mkA,
      matches_language mkA.lang_set kv.key = .ok entryA1.matches_language ∧
      entryA1 ∈ decode_matching_value prZero sdScore kv.value optsA
        entryA1.matches_language gsA.coalesce_radius ∧
      ∃ rs ∈ kv.value.relev_scores, ∃ wr : Bool,
        entryA1.grid_entry.relev = qmul (relev_int_to_float (rs.relev_score / 16))
          (if entryA1.matches_language || wr then 1 else boostFactor) ∧
        (optsA.proximity = none → wr = false) ∧
        (∀ pt : Nat × Nat, optsA.proximity = some pt →
          wr = decide (entryA1.distance ≤ prZero optsA.zoom gsA.coalesce_radius)) :=
  language_boost_law prZero sdScore gsA mkA optsA 2 [entryA1, entryA2] (by decide)
    entryA1 (by decide)

theorem no_proximity_distance_scoredist_witness :
    entryA2.distance = 0 ∧
    entryA2.scoredist = (entryA2.grid_entry.score : ℚ) ∧
    ∃ kv ∈ visitedOf gsA mkA, ∃ rs ∈ kv.value.relev_scores,
      entryA2.grid_entry.score = rs.relev_score % 16 ∧
      entryA2.grid_entry.relev = qmul (relev_int_to_float (rs.relev_score / 16))
        (if entryA2.matches_language then 1 else boostFactor) :=
  no_proximity_distance_scoredist prZero sdScore gsA mkA optsA 2 [entryA1, entryA2]
    rfl (by decide) entryA2 (by decide)

theorem extractMax_max :
    ∀ (q : List QE) (m : QE) (q2 : List QE), extractMax q = some (m, q2) →
      ∀ x ∈ q, skLe (qKey x) (qKey m) := by
  intro q
  induction q with
  | nil => intro m q2 h; simp [extractMax] at h
  | cons a rest ih =>
    intro m q2 h x hx
    simp only [extractMax] at h
    match hrec : extractMax rest with
    | none =>
      rw [hrec] at h
      simp only [Option.some.injEq, Prod.mk.injEq] at h
      obtain ⟨rfl, rfl⟩ := h
      have := extractMax_eq_none hrec
      subst this
      rcases List.mem_cons.1 hx with rfl | hx
      · exact skLe_refl _
      · simp at hx
    | some (b, rest2) =>
      rw [hrec] at h
      simp only at h
      by_cases hlt : skLt (qKey a) (qKey b)
      · rw [if_pos hlt] at h
        simp only [Option.some.injEq, Prod.mk.injEq] at h
        obtain ⟨rfl, rfl⟩ := h
        rcases List.mem_cons.1 hx with rfl | hx
        · exact skLe_of_skLt hlt
        · exact ih _ _ hrec x hx
      · rw [if_neg hlt] at h
        simp only [Option.some.injEq, Prod.mk.injEq] at h
        obtain ⟨rfl, rfl⟩ := h
        rcases List.mem_cons.1 hx with rfl | hx
        · exact skLe_refl _
        · exact skLe_trans (ih _ _ hrec x hx) hlt

/-- Queue invariant: every element stream, head first, is non-increasing in
the composite rank. -/
def qSorted (q : List QE) : Prop := ∀ qe ∈ q, List.Pairwise entGe (qe.1 :: qe.2)

theorem entries_le_max (q : List QE) (m : QE) (q2 : List QE)
    (hmax : extractMax q = some (m, q2)) (hq : qSorted q) :
    ∀ x ∈ entriesOf q, skLe (sortKey x) (qKey m) := by
  intro x hx
  simp only [entriesOf, List.mem_flatMap] at hx
  obtain ⟨qe, hqe, hx⟩ := hx
  have hhead := extractMax_max q m q2 hmax qe hqe
  rcases List.mem_cons.1 hx with rfl | hx
  · exact hhead
  · have := (List.pairwise_cons.1 (hq qe hqe)).1 x hx
    exact skLe_trans this hhead

theorem drainGo_sorted :
    ∀ (fuel : Nat) (q : List QE), qSorted q → List.Pairwise entGe (drainGo fuel q) := by
  intro fuel
  induction fuel with
  | zero => intro q hq; simp [drainGo]
  | succ n ih =>
    intro q hq
    simp only [drainGo]
    match hrec : extractMax q with
    | none => simp
    | some (m, q2) =>
      simp only
      have hperm : q.Perm (m :: q2) := extractMax_perm q m q2 hrec
      have hq2mem : ∀ qe ∈ q2, qe ∈ q := by
        intro qe hqe
        exact hperm.mem_iff.2 (List.mem_cons_of_mem _ hqe)
      have hmsort : List.Pairwise entGe (m.1 :: m.2) :=
        hq m (hperm.mem_iff.2 (List.mem_cons_self _ _))
      match hm : m.2 with
      | [] =>
        refine List.pairwise_cons.2 ⟨?_, ih q2 (fun qe hqe => hq qe (hq2mem qe hqe))⟩
        intro y hy
        have hym := drainGo_mem n q2 y hy
        have : y ∈ entriesOf q := by
          refine (hperm.flatMap_right (fun qe => qe.1 :: qe.2)).mem_iff.2 ?_
          simp only [entriesOf, List.flatMap_cons, List.mem_append]
          exact Or.inr hym
        exact entries_le_max q m q2 hrec hq y this
      | e2 :: t2 =>
        have hq3 : qSorted (q2 ++ [(e2, t2)]) := by
          intro qe hqe
          rcases List.mem_append.1 hqe with hqe | hqe
          · exact hq qe (hq2mem qe hqe)
          · rw [List.mem_singleton] at hqe
            subst hqe
            rw [hm] at hmsort
            exact (List.pairwise_cons.1 hmsort).2
        refine List.pairwise_cons.2 ⟨?_, ih _ hq3⟩
        intro y hy
        have hym := drainGo_mem n _ y hy
        simp only [entriesOf, List.flatMap_append, List.flatMap_cons, List.flatMap_nil,
          List.append_nil, List.mem_append, List.mem_cons] at hym
        rcases hym with hym | hym | hym
        · have : y ∈ entriesOf q := by
            refine (hperm.flatMap_right (fun qe => qe.1 :: qe.2)).mem_iff.2 ?_
            simp only [entriesOf, List.flatMap_cons, List.mem_append]
            exact Or.inr hym
          exact entries_le_max q m q2 hrec hq y this
        · subst hym
          rw [hm] at hmsort
          exact (List.pairwise_cons.1 hmsort).1 y (List.mem_cons_self _ _)
        · rw [hm] at hmsort
          exact (List.pairwise_cons.1 hmsort).1 y (List.mem_cons_of_mem _ hym)

theorem drain_sorted (q : List QE) (hq : qSorted q) : List.Pairwise entGe (drain q) :=
  drainGo_sorted _ q hq

theorem admitLoop_elems_sorted :
    ∀ (maxV : Nat) (streams : List (List MatchEntry)) (q q2 : List QE),
      admitLoop maxV streams q = some q2 →
      (∀ s ∈ streams, List.Pairwise entGe s) → qSorted q → qSorted q2 := by
  intro maxV streams
  induction streams with
  | nil =>
    intro q q2 h hs hq
    simp only [admitLoop, Option.some.injEq] at h
    subst h
    exact hq
  | cons s rest ih =>
    intro q q2 h hs hq
    have hrest : ∀ s2 ∈ rest, List.Pairwise entGe s2 :=
      fun s2 hs2 => hs s2 (List.mem_cons_of_mem _ hs2)
    match s with
    | [] =>
      simp only [admitLoop] at h
      exact ih q q2 h hrest hq
    | e :: tail =>
      have hst : List.Pairwise entGe (e :: tail) := hs _ (List.mem_cons_self _ _)
      simp only [admitLoop] at h
      by_cases hfull : maxV ≤ q.length
      · rw [if_pos hfull] at h
        match hmin : extractMin q with
        | none => rw [hmin] at h; simp at h
        | some (worst, qrest) =>
          rw [hmin] at h
          simp only at h
          by_cases hskip : skLe (sortKey e) (qKey worst)
          · rw [if_pos hskip] at h
            exact ih q q2 h hrest hq
          · rw [if_neg hskip] at h
            refine ih _ q2 h hrest ?_
            intro qe hqe
            rcases List.mem_append.1 hqe with hqe | hqe
            · have hperm := extractMin_perm q worst qrest hmin
              exact hq qe (hperm.mem_iff.2 (List.mem_cons_of_mem _ hqe))
            · rw [List.mem_singleton] at hqe
              subst hqe
              exact hst
      · rw [if_neg hfull] at h
        refine ih _ q2 h hrest ?_
        intro qe hqe
        rcases List.mem_append.1 hqe with hqe | hqe
        · exact hq qe hqe
        · rw [List.mem_singleton] at hqe
          subst hqe
          exact hst

/-- C2 amended: provided every scanned record decoded stream is itself
non-increasing in the composite rank (relev, scoredist, matches_language,
x, y, id), the stream the query yields is non-increasing in that rank; the
bounded queue preserves record streams and the drain always emits a
current maximum. -/
theorem streaming_output_sorted_of_sorted_streams (pr_fn : Nat → ℚ → ℚ)
    (sd_fn : Nat → ℚ → Nat → ℚ → ℚ) (gs : GridStore) (mk : MatchKey)
    (opts : MatchOpts) (maxV : Nat) (out : List MatchEntry)
    (streams : List (List MatchEntry))
    (hc : runStreams pr_fn sd_fn gs mk opts = .ok streams)
    (hs : ∀ s ∈ streams, List.Pairwise entGe s)
    (hrun : streaming_get_matching pr_fn sd_fn gs mk opts maxV = .ok out) :
    List.Pairwise entGe out := by
  obtain ⟨streams2, q, hc2, ha, hout⟩ := run_ok_elim pr_fn sd_fn gs mk opts maxV out hrun
  rw [hc] at hc2
  simp only [Except.ok.injEq] at hc2
  subst hc2
  subst hout
  refine drain_sorted q (admitLoop_elems_sorted maxV streams [] q ha hs ?_)
  intro qe hqe
  simp at hqe

theorem streaming_output_sorted_of_sorted_streams_witness :
    List.Pairwise entGe [entryB1, entryB2] :=
  streaming_output_sorted_of_sorted_streams prZero sdScore gsNoBins mkB optsA 2
    [entryB1, entryB2] [[entryB1], [entryB2]] rfl (by decide) (by decide)

theorem qWeight_zero (q : List QE) (h : qWeight q = 0) : q = [] := by
  match q with
  | [] => rfl
  | qe :: rest => rw [qWeight_cons] at h; omega

theorem entriesOf_cons (qe : QE) (q : List QE) :
    entriesOf (qe :: q) = (qe.1 :: qe.2) ++ entriesOf q := by
  simp [entriesOf]

theorem entriesOf_append (q1 q2 : List QE) :
    entriesOf (q1 ++ q2) = entriesOf q1 ++ entriesOf q2 := by
  simp [entriesOf]

theorem drainGo_perm :
    ∀ (fuel : Nat) (q : List QE), qWeight q ≤ fuel →
      (drainGo fuel q).Perm (entriesOf q) := by
  intro fuel
  induction fuel with
  | zero =>
    intro q h
    have := qWeight_zero q (Nat.le_zero.1 h)
    subst this
    simp [drainGo, entriesOf]
  | succ n ih =>
    intro q h
    simp only [drainGo]
    match hrec : extractMax q with
    | none =>
      have := extractMax_eq_none hrec
      subst this
      simp [entriesOf]
    | some (m, q2) =>
      simp only
      have hperm : q.Perm (m :: q2) := extractMax_perm q m q2 hrec
      have hentries : (entriesOf q).Perm (entriesOf (m :: q2)) := by
        unfold entriesOf
        exact hperm.flatMap_right _
      have hw : qWeight q = m.2.length + 1 + qWeight q2 := by
        rw [qWeight_perm hperm, qWeight_cons]
      match hm : m.2 with
      | [] =>
        have hw2 : qWeight q2 ≤ n := by rw [hm] at hw; simp at hw; omega
        refine ((ih q2 hw2).cons m.1).trans ?_
        refine ((hentries.trans (by rw [entriesOf_cons, hm]; simp)).symm)
      | e2 :: t2 =>
        have hw2 : qWeight (q2 ++ [(e2, t2)]) ≤ n := by
          rw [hm] at hw
          rw [qWeight_append, qWeight_cons]
          simp only [List.length_cons] at hw
          have hq0 : qWeight ([] : List QE) = 0 := rfl
          rw [hq0]
          dsimp only
          omega
        refine ((ih _ hw2).cons m.1).trans ?_
        have h1 : entriesOf (q2 ++ [(e2, t2)]) = entriesOf q2 ++ (e2 :: t2) := by
          rw [entriesOf_append]
          simp [entriesOf]
        rw [h1]
        refine List.Perm.trans ?_ hentries.symm
        rw [entriesOf_cons, hm]
        exact List.perm_append_comm.cons m.1

theorem drain_perm (q : List QE) : (drain q).Perm (entriesOf q) :=
  drainGo_perm _ q (Nat.le_refl _)

theorem admitLoop_nofill :
    ∀ (maxV : Nat) (streams : List (List MatchEntry)) (q : List QE),
      q.length + streams.length ≤ maxV →
      ∃ q2, admitLoop maxV streams q = some q2 ∧
        (entriesOf q2).Perm (entriesOf q ++ streams.flatMap id) := by
  intro maxV streams
  induction streams with
  | nil =>
    intro q h
    exact ⟨q, rfl, by simp⟩
  | cons s rest ih =>
    intro q h
    simp only [List.length_cons] at h
    match s with
    | [] =>
      simp only [admitLoop]
      obtain ⟨q2, hq2, hp⟩ := ih q (by omega)
      exact ⟨q2, hq2, by simpa using hp⟩
    | e :: tail =>
      simp only [admitLoop]
      rw [if_neg (by omega)]
      obtain ⟨q2, hq2, hp⟩ := ih (q ++ [(e, tail)]) (by simp; omega)
      refine ⟨q2, hq2, hp.trans ?_⟩
      rw [entriesOf_append]
      have h1 : entriesOf [(e, tail)] = e :: tail := by simp [entriesOf]
      rw [h1, List.append_assoc]
      simp only [List.flatMap_cons, id_eq]
      exact List.Perm.refl _

theorem beVal_aux :
    ∀ (u : List Nat) (acc : Nat),
      u.foldl (fun a b => a * 256 + b) acc = acc * 256 ^ u.length + beVal u := by
  intro u
  induction u with
  | nil => intro acc; simp [beVal]
  | cons b u2 ih =>
    intro acc
    have h1 : beVal (b :: u2) = b * 256 ^ u2.length + beVal u2 := by
      show u2.foldl (fun a b => a * 256 + b) (0 * 256 + b) = _
      rw [ih (0 * 256 + b)]
      ring
    show u2.foldl (fun a b => a * 256 + b) (acc * 256 + b) = _
    rw [ih (acc * 256 + b), h1, List.length_cons]
    ring

theorem beVal_cons (b : Nat) (u : List Nat) :
    beVal (b :: u) = b * 256 ^ u.length + beVal u := by
  show u.foldl (fun a b => a * 256 + b) (0 * 256 + b) = _
  rw [beVal_aux u (0 * 256 + b)]
  ring

theorem beVal_lt (u : List Nat) (hb : ∀ c ∈ u, c < 256) : beVal u < 256 ^ u.length := by
  induction u with
  | nil => simp [beVal]
  | cons b u2 ih =>
    rw [beVal_cons, List.length_cons]
    have h1 : beVal u2 < 256 ^ u2.length := ih (fun c hc => hb c (List.mem_cons_of_mem _ hc))
    have h2 : b < 256 := hb b (List.mem_cons_self _ _)
    calc b * 256 ^ u2.length + beVal u2
        < b * 256 ^ u2.length + 256 ^ u2.length := by omega
      _ = (b + 1) * 256 ^ u2.length := by ring
      _ ≤ 256 * 256 ^ u2.length := Nat.mul_le_mul_right _ (by omega)
      _ = 256 ^ (u2.length + 1) := by ring

theorem leBytes_cons_iff (a b : Nat) (u v : List Nat) :
    leBytes (a :: u) (b :: v) = true ↔ (a < b ∨ (a = b ∧ leBytes u v = true)) := by
  simp only [leBytes]
  by_cases h1 : a < b
  · simp [h1]
  · rw [if_neg h1]
    by_cases h2 : b < a
    · simp [h2]; omega
    · rw [if_neg h2]
      have : a = b := by omega
      simp [this]

theorem leBytes_total : ∀ (u v : List Nat), leBytes u v = true ∨ leBytes v u = true := by
  intro u
  induction u with
  | nil => intro v; exact Or.inl rfl
  | cons a u2 ih =>
    intro v
    match v with
    | [] => exact Or.inr rfl
    | b :: v2 =>
      rcases Nat.lt_trichotomy a b with h | h | h
      · exact Or.inl ((leBytes_cons_iff _ _ _ _).2 (Or.inl h))
      · rcases ih v2 with h2 | h2
        · exact Or.inl ((leBytes_cons_iff _ _ _ _).2 (Or.inr ⟨h, h2⟩))
        · exact Or.inr ((leBytes_cons_iff _ _ _ _).2 (Or.inr ⟨h.symm, h2⟩))
      · exact Or.inr ((leBytes_cons_iff _ _ _ _).2 (Or.inl h))

theorem leBytes_trans :
    ∀ (u v w : List Nat), leBytes u v = true → leBytes v w = true → leBytes u w = true := by
  intro u
  induction u with
  | nil => intro v w _ _; rfl
  | cons a u2 ih =>
    intro v w h1 h2
    match v with
    | [] => simp [leBytes] at h1
    | b :: v2 =>
      match w with
      | [] => simp [leBytes] at h2
      | c :: w2 =>
        rcases (leBytes_cons_iff _ _ _ _).1 h1 with hab | ⟨hab, h1r⟩ <;>
          rcases (leBytes_cons_iff _ _ _ _).1 h2 with hbc | ⟨hbc, h2r⟩
        · exact (leBytes_cons_iff _ _ _ _).2 (Or.inl (hab.trans hbc))
        · exact (leBytes_cons_iff _ _ _ _).2 (Or.inl (hbc ▸ hab))
        · exact (leBytes_cons_iff _ _ _ _).2 (Or.inl (hab ▸ hbc))
        · exact (leBytes_cons_iff _ _ _ _).2 (Or.inr ⟨hab.trans hbc, ih v2 w2 h1r h2r⟩)

theorem leBytes_append_beVal_le :
    ∀ (u v a b : List Nat), u.length = v.length →
      (∀ c ∈ u, c < 256) → (∀ c ∈ v, c < 256) →
      leBytes (u ++ a) (v ++ b) = true → beVal u ≤ beVal v := by
  intro u
  induction u with
  | nil =>
    intro v a b hlen _ _ _
    have : v = [] := List.eq_nil_of_length_eq_zero hlen.symm
    subst this
    exact Nat.le_refl _
  | cons x u2 ih =>
    intro v a b hlen hbu hbv h
    match v with
    | [] => simp at hlen
    | y :: v2 =>
      simp only [List.length_cons, Nat.succ.injEq] at hlen
      simp only [List.cons_append] at h
      rw [beVal_cons, beVal_cons, hlen]
      rcases (leBytes_cons_iff _ _ _ _).1 h with hxy | ⟨hxy, hrec⟩
      · have hu2 : beVal u2 < 256 ^ u2.length :=
          beVal_lt u2 (fun c hc => hbu c (List.mem_cons_of_mem _ hc))
        rw [hlen] at hu2
        refine le_of_lt ?_
        calc x * 256 ^ v2.length + beVal u2
            < x * 256 ^ v2.length + 256 ^ v2.length := by omega
          _ = (x + 1) * 256 ^ v2.length := by ring
          _ ≤ y * 256 ^ v2.length := Nat.mul_le_mul_right _ (by omega)
          _ ≤ y * 256 ^ v2.length + beVal v2 := Nat.le_add_right _ _
      · have := ih v2 a b hlen (fun c hc => hbu c (List.mem_cons_of_mem _ hc))
          (fun c hc => hbv c (List.mem_cons_of_mem _ hc)) hrec
        subst hxy
        omega

theorem leBytes_append_of_beVal_le :
    ∀ (u v b : List Nat), u.length = v.length →
      (∀ c ∈ u, c < 256) → (∀ c ∈ v, c < 256) →
      beVal u ≤ beVal v → leBytes u (v ++ b) = true := by
  intro u
  induction u with
  | nil => intro v b _ _ _ _; rfl
  | cons x u2 ih =>
    intro v b hlen hbu hbv h
    match v with
    | [] => simp at hlen
    | y :: v2 =>
      simp only [List.length_cons, Nat.succ.injEq] at hlen
      rw [beVal_cons, beVal_cons, hlen] at h
      have hu2 : beVal u2 < 256 ^ u2.length :=
        beVal_lt u2 (fun c hc => hbu c (List.mem_cons_of_mem _ hc))
      have hv2 : beVal v2 < 256 ^ v2.length :=
        beVal_lt v2 (fun c hc => hbv c (List.mem_cons_of_mem _ hc))
      rw [hlen] at hu2
      have hxy : x ≤ y := by
        by_contra hgt
        push_neg at hgt
        have : (y + 1) * 256 ^ v2.length ≤ x * 256 ^ v2.length :=
          Nat.mul_le_mul_right _ (by omega)
        have h2 : y * 256 ^ v2.length + beVal v2 < (y + 1) * 256 ^ v2.length := by
          have : (y + 1) * 256 ^ v2.length = y * 256 ^ v2.length + 256 ^ v2.length := by ring
          omega
        omega
      simp only [List.cons_append]
      rcases Nat.lt_or_ge x y with hlt | hge
      · exact (leBytes_cons_iff _ _ _ _).2 (Or.inl hlt)
      · have hxy2 : x = y := by omega
        subst hxy2
        have htail : beVal u2 ≤ beVal v2 := by omega
        exact (leBytes_cons_iff _ _ _ _).2 (Or.inr ⟨rfl,
          ih v2 b hlen (fun c hc => hbu c (List.mem_cons_of_mem _ hc))
            (fun c hc => hbv c (List.mem_cons_of_mem _ hc)) htail⟩)

theorem be32_length (n : Nat) : (be32 n).length = 4 := rfl

theorem be32_bounds (n : Nat) : ∀ c ∈ be32 n, c < 256 := by
  intro c hc
  simp only [be32, List.mem_cons, List.mem_singleton] at hc
  rcases hc with rfl | rfl | rfl | rfl | h
  · exact Nat.mod_lt _ (by omega)
  · exact Nat.mod_lt _ (by omega)
  · exact Nat.mod_lt _ (by omega)
  · exact Nat.mod_lt _ (by omega)
  · simp at h

theorem beVal_be32 (n : Nat) (h : n < 2 ^ 32) : beVal (be32 n) = n := by
  simp only [be32, beVal, List.foldl]
  omega

/-- A stored key bears the requested marker and a phrase id inside the
fetch range. -/
def keyInFetchRange (marker : TypeMarker) (fetch_start fetch_stop : Nat)
    (k : List Nat) : Prop :=
  k.head? = some (markerByte marker) ∧ 5 ≤ k.length ∧
    fetch_start ≤ beVal ((k.drop 1).take 4) ∧ beVal ((k.drop 1).take 4) < fetch_stop

instance (marker : TypeMarker) (fs fe : Nat) (k : List Nat) :
    Decidable (keyInFetchRange marker fs fe k) := by
  unfold keyInFetchRange; infer_instance

theorem matches_key_ok_true_iff (marker : TypeMarker) (fs fe : Nat) (k : List Nat) :
    matches_key marker fs fe k = .ok true ↔ keyInFetchRange marker fs fe k := by
  match k with
  | [] =>
    simp only [matches_key, keyInFetchRange]
    simp
  | b :: rest =>
    simp only [matches_key, keyInFetchRange]
    by_cases hb : b = markerByte marker
    · rw [if_neg (by simp [hb])]
      by_cases hlen : rest.length < 4
      · rw [if_pos hlen]
        simp only [List.head?, List.length_cons, List.drop_succ_cons, List.drop_zero]
        constructor
        · intro h; simp at h
        · rintro ⟨_, h2, _⟩; omega
      · rw [if_neg hlen]
        simp only [List.head?, List.length_cons, List.drop_succ_cons, List.drop_zero,
          Except.ok.injEq, decide_eq_true_eq]
        constructor
        · rintro ⟨h1, h2⟩
          exact ⟨by rw [hb], by omega, h1, h2⟩
        · rintro ⟨_, _, h3, h4⟩
          exact ⟨h3, h4⟩
    · rw [if_pos (by simp [hb])]
      simp only [List.head?, Except.ok.injEq]
      constructor
      · intro h; simp at h
      · rintro ⟨h1, _⟩
        simp only [Option.some.injEq] at h1
        exact absurd h1 hb

theorem visitedKVs_eq_takeWhile_inRange (marker : TypeMarker) (fs fe : Nat)
    (kvs : List KV) :
    visitedKVs marker fs fe kvs =
      kvs.takeWhile (fun kv => decide (keyInFetchRange marker fs fe kv.key)) := by
  unfold visitedKVs
  congr 1
  funext kv
  match hm : matches_key marker fs fe kv.key with
  | .ok true =>
    have := (matches_key_ok_true_iff marker fs fe kv.key).1 hm
    simp [this]
  | .ok false =>
    have : ¬ keyInFetchRange marker fs fe kv.key := by
      intro hc
      rw [(matches_key_ok_true_iff marker fs fe kv.key).2 hc] at hm
      simp at hm
    simp [this]
  | .error u =>
    have : ¬ keyInFetchRange marker fs fe kv.key := by
      intro hc
      rw [(matches_key_ok_true_iff marker fs fe kv.key).2 hc] at hm
      simp at hm
    simp [this]

theorem takeWhile_eq_filter {α : Type} (p : α → Bool) :
    ∀ (L : List α), List.Pairwise (fun x y => p y = true → p x = true) L →
      L.takeWhile p = L.filter p := by
  intro L
  induction L with
  | nil => intro _; rfl
  | cons a L2 ih =>
    intro hp
    obtain ⟨hhead, htail⟩ := List.pairwise_cons.1 hp
    by_cases ha : p a = true
    · rw [List.takeWhile_cons, if_pos ha, List.filter_cons, if_pos ha, ih htail]
    · rw [List.takeWhile_cons, if_neg ha, List.filter_cons, if_neg ha]
      have hall : ∀ y ∈ L2, ¬ p y = true := fun y hy hpy => ha (hhead y hy hpy)
      rw [List.filter_eq_nil_iff.2 hall]

theorem insertKV_sorted (kv : KV) :
    ∀ (l : List KV), List.Pairwise (fun x y : KV => leBytes x.key y.key = true) l →
      List.Pairwise (fun x y : KV => leBytes x.key y.key = true) (insertKV kv l) := by
  intro l
  induction l with
  | nil => intro _; simp [insertKV]
  | cons x xs ih =>
    intro hp
    obtain ⟨hhead, htail⟩ := List.pairwise_cons.1 hp
    simp only [insertKV]
    by_cases h : leBytes kv.key x.key
    · rw [if_pos h]
      refine List.pairwise_cons.2 ⟨?_, hp⟩
      intro y hy
      rcases List.mem_cons.1 hy with rfl | hy
      · exact h
      · exact leBytes_trans _ _ _ h (hhead y hy)
    · rw [if_neg h]
      have hxk : leBytes x.key kv.key = true := by
        rcases leBytes_total kv.key x.key with h2 | h2
        · exact absurd h2 h
        · exact h2
      refine List.pairwise_cons.2 ⟨?_, ih htail⟩
      intro y hy
      rcases List.mem_cons.1 ((insertKV_perm kv xs).mem_iff.1 hy) with rfl | hy2
      · exact hxk
      · exact hhead y hy2

theorem sortKVs_sorted :
    ∀ (l : List KV), List.Pairwise (fun x y : KV => leBytes x.key y.key = true) (sortKVs l) := by
  intro l
  induction l with
  | nil => simp [sortKVs]
  | cons x xs ih => exact insertKV_sorted x (sortKVs xs) ih

theorem marker_head_length (k : List Nat) (marker : TypeMarker)
    (hw : wellFormedKey k) (hh : k.head? = some (markerByte marker)) :
    5 ≤ k.length := by
  rcases hw.2 with h | ⟨h1, h2⟩
  · exact h
  · cases marker
    · exact absurd hh h1
    · exact absurd hh h2

theorem keyInFetchRange_ge_db (marker : TypeMarker) (fs fe : Nat) (k : List Nat)
    (hw : wellFormedKey k) (hfs : fs < 2 ^ 32)
    (hk : keyInFetchRange marker fs fe k) :
    leBytes (markerByte marker :: be32 fs) k = true := by
  obtain ⟨hh, hlen, hge, hlt⟩ := hk
  match k with
  | [] => simp at hh
  | b :: rest =>
    simp only [List.head?, Option.some.injEq] at hh
    subst hh
    simp only [List.length_cons] at hlen
    simp only [List.drop_succ_cons, List.drop_zero] at hge hlt
    refine (leBytes_cons_iff _ _ _ _).2 (Or.inr ⟨rfl, ?_⟩)
    have hsplit : rest = rest.take 4 ++ rest.drop 4 := (List.take_append_drop 4 rest).symm
    rw [hsplit]
    refine leBytes_append_of_beVal_le (be32 fs) (rest.take 4) (rest.drop 4) ?_ ?_ ?_ ?_
    · rw [be32_length, List.length_take]
      omega
    · exact be32_bounds fs
    · intro c hc
      exact hw.1 c (List.mem_cons_of_mem _ (List.mem_of_mem_take hc))
    · rw [beVal_be32 fs hfs]
      exact hge

theorem keyInFetchRange_down (marker : TypeMarker) (fs fe : Nat) (x y : List Nat)
    (hwx : wellFormedKey x) (hwy : wellFormedKey y) (hfs : fs < 2 ^ 32)
    (hdb : leBytes (markerByte marker :: be32 fs) x = true)
    (hxy : leBytes x y = true)
    (hy : keyInFetchRange marker fs fe y) : keyInFetchRange marker fs fe x := by
  obtain ⟨hhy, hleny, hgey, hlty⟩ := hy
  match y with
  | [] => simp at hhy
  | hy1 :: ry =>
    simp only [List.head?, Option.some.injEq] at hhy
    subst hhy
    simp only [List.length_cons] at hleny
    simp only [List.drop_succ_cons, List.drop_zero] at hgey hlty
    match x with
    | [] => simp [leBytes] at hdb
    | hx1 :: rx =>
      rcases (leBytes_cons_iff _ _ _ _).1 hdb with hmx | ⟨hmx, hdbr⟩ <;>
        rcases (leBytes_cons_iff _ _ _ _).1 hxy with hxm | ⟨hxm, hxyr⟩
      · omega
      · omega
      · omega
      · have hhx : hx1 = markerByte marker := by omega
        subst hhx
        have hlenx : 5 ≤ (markerByte marker :: rx).length :=
          marker_head_length _ marker hwx rfl
        simp only [List.length_cons] at hlenx
        have hrxlen : 4 ≤ rx.length := by omega
        have hbrx : ∀ c ∈ rx, c < 256 :=
          fun c hc => hwx.1 c (List.mem_cons_of_mem _ hc)
        have hbry : ∀ c ∈ ry, c < 256 :=
          fun c hc => hwy.1 c (List.mem_cons_of_mem _ hc)
        have hsplitx : rx = rx.take 4 ++ rx.drop 4 := (List.take_append_drop 4 rx).symm
        have hsplity : ry = ry.take 4 ++ ry.drop 4 := (List.take_append_drop 4 ry).symm
        have hlen4x : (rx.take 4).length = 4 := by rw [List.length_take]; omega
        have hlen4y : (ry.take 4).length = 4 := by rw [List.length_take]; omega
        have hge : fs ≤ beVal (rx.take 4) := by
          rw [hsplitx] at hdbr
          have := leBytes_append_beVal_le (be32 fs) (rx.take 4) [] (rx.drop 4)
            (by rw [be32_length, hlen4x]) (be32_bounds fs)
            (fun c hc => hbrx c (List.mem_of_mem_take hc))
            (by rw [List.append_nil]; exact hdbr)
          rw [beVal_be32 fs hfs] at this
          exact this
        have hle : beVal (rx.take 4) ≤ beVal (ry.take 4) := by
          rw [hsplitx, hsplity] at hxyr
          exact leBytes_append_beVal_le (rx.take 4) (ry.take 4) (rx.drop 4) (ry.drop 4)
            (by rw [hlen4x, hlen4y]) (fun c hc => hbrx c (List.mem_of_mem_take hc))
            (fun c hc => hbry c (List.mem_of_mem_take hc)) hxyr
        refine ⟨rfl, by simp; omega, ?_, ?_⟩
        · simpa using hge
        · simp only [List.drop_succ_cons, List.drop_zero]
          omega

theorem filter_filter_of_imp {α : Type} (p q : α → Bool) :
    ∀ (l : List α), (∀ x ∈ l, p x = true → q x = true) →
      (l.filter q).filter p = l.filter p := by
  intro l
  induction l with
  | nil => intro _; rfl
  | cons a l2 ih =>
    intro himp
    have hrest : ∀ x ∈ l2, p x = true → q x = true :=
      fun x hx => himp x (List.mem_cons_of_mem _ hx)
    by_cases hq : q a = true
    · rw [List.filter_cons, if_pos hq, List.filter_cons, List.filter_cons]
      rw [ih hrest]
    · have hp : ¬ p a = true := fun hpa => hq (himp a (List.mem_cons_self _ _) hpa)
      rw [List.filter_cons, if_neg hq, List.filter_cons, if_neg hp]
      exact ih hrest

/-- C7: streaming_get_matching selects its fetch range and marker from the
match phrase and the bin-boundary set exactly as claimed, and on a store of
well-formed keys the ascending scan visits exactly the stored keys that
bear the selected marker with a phrase id inside the fetch range, stopping
at the first key outside it. -/
theorem fetch_selection_and_scan_range :
    (∀ (bins : List Nat) (id : Nat),
      fetchParams bins (.Exact id) = (id, id + 1, .SinglePhrase)) ∧
    (∀ (bins : List Nat) (s e : Nat), s ∈ bins → e ∈ bins →
      fetchParams bins (.Range s e) = (s, e, .PrefixBin)) ∧
    (∀ (bins : List Nat) (s e : Nat), ¬ (s ∈ bins ∧ e ∈ bins) →
      fetchParams bins (.Range s e) = (s, e, .SinglePhrase)) ∧
    (∀ (gs : GridStore) (mk : MatchKey),
      (∀ kv ∈ gs.store, wellFormedKey kv.key) → (fpOf gs mk).1 < 2 ^ 32 →
      visitedOf gs mk = (sortKVs gs.store).filter
        (fun kv => decide (keyInFetchRange (fpOf gs mk).2.2 (fpOf gs mk).1
          (fpOf gs mk).2.1 kv.key))) := by
  refine ⟨fun bins id => rfl, ?_, ?_, ?_⟩
  · intro bins s e hs he
    simp [fetchParams, hs, he]
  · intro bins s e h
    simp only [fetchParams]
    rw [if_neg h]
  · intro gs mk hwf hfs
    have hwf2 : ∀ kv ∈ sortKVs gs.store, wellFormedKey kv.key :=
      fun kv hkv => hwf kv ((sortKVs_perm gs.store).mem_iff.1 hkv)
    unfold visitedOf scannedKVs dbScan
    rw [visitedKVs_eq_takeWhile_inRange]
    rw [takeWhile_eq_filter]
    · refine filter_filter_of_imp _ _ (sortKVs gs.store) ?_
      intro x hx hpx
      rw [decide_eq_true_eq] at hpx
      exact keyInFetchRange_ge_db (fpOf gs mk).2.2 (fpOf gs mk).1 (fpOf gs mk).2.1
        x.key (hwf2 x hx) hfs hpx
    · have hsorted : List.Pairwise (fun x y : KV => leBytes x.key y.key = true)
          ((sortKVs gs.store).filter
            (fun kv => leBytes (dbStartKey (fpOf gs mk).2.2 (fpOf gs mk).1) kv.key)) :=
        List.Pairwise.sublist (List.filter_sublist _) (sortKVs_sorted gs.store)
      refine hsorted.imp_of_mem ?_
      intro x y hxm hym hxy
      intro hpy
      rw [decide_eq_true_eq] at hpy ⊢
      have hxw : wellFormedKey x.key := hwf2 x (List.mem_of_mem_filter hxm)
      have hyw : wellFormedKey y.key := hwf2 y (List.mem_of_mem_filter hym)
      have hxdb : leBytes (dbStartKey (fpOf gs mk).2.2 (fpOf gs mk).1) x.key = true :=
        (List.mem_filter.1 hxm).2
      exact keyInFetchRange_down (fpOf gs mk).2.2 (fpOf gs mk).1 (fpOf gs mk).2.1
        x.key y.key hxw hyw hfs hxdb hxy hpy

theorem fetch_selection_and_scan_range_witness :
    fetchParams [5, 7] (.Exact 3) = (3, 4, .SinglePhrase) ∧
    fetchParams [5, 7] (.Range 5 7) = (5, 7, .PrefixBin) ∧
    fetchParams [] (.Range 5 7) = (5, 7, .SinglePhrase) ∧
    visitedOf gsNoBins mkB = (sortKVs gsNoBins.store).filter
      (fun kv => decide (keyInFetchRange (fpOf gsNoBins mkB).2.2 (fpOf gsNoBins mkB).1
        (fpOf gsNoBins mkB).2.1 kv.key)) :=
  ⟨fetch_selection_and_scan_range.1 [5, 7] 3,
   fetch_selection_and_scan_range.2.1 [5, 7] 5 7 (by decide) (by decide),
   fetch_selection_and_scan_range.2.2.1 [] 5 7 (by decide),
   fetch_selection_and_scan_range.2.2.2 gsNoBins mkB (by decide) (by decide)⟩

theorem extractMin_min :
    ∀ (q : List QE) (m : QE) (q2 : List QE), extractMin q = some (m, q2) →
      ∀ x ∈ q, skLe (qKey m) (qKey x) := by
  intro q
  induction q with
  | nil => intro m q2 h; simp [extractMin] at h
  | cons a rest ih =>
    intro m q2 h x hx
    simp only [extractMin] at h
    match hrec : extractMin rest with
    | none =>
      rw [hrec] at h
      simp only [Option.some.injEq, Prod.mk.injEq] at h
      obtain ⟨rfl, rfl⟩ := h
      have := extractMin_eq_none hrec
      subst this
      rcases List.mem_cons.1 hx with rfl | hx
      · exact skLe_refl _
      · simp at hx
    | some (b, rest2) =>
      rw [hrec] at h
      simp only at h
      by_cases hlt : skLt (qKey b) (qKey a)
      · rw [if_pos hlt] at h
        simp only [Option.some.injEq, Prod.mk.injEq] at h
        obtain ⟨rfl, rfl⟩ := h
        rcases List.mem_cons.1 hx with rfl | hx
        · exact skLe_of_skLt hlt
        · exact ih _ _ hrec x hx
      · rw [if_neg hlt] at h
        simp only [Option.some.injEq, Prod.mk.injEq] at h
        obtain ⟨rfl, rfl⟩ := h
        rcases List.mem_cons.1 hx with rfl | hx
        · exact skLe_refl _
        · exact skLe_trans hlt (ih _ _ hrec x hx)

theorem admitLoop_len_ge :
    ∀ (maxV : Nat) (streams : List (List MatchEntry)) (q q2 : List QE),
      admitLoop maxV streams q = some q2 → maxV ≤ q.length → maxV ≤ q2.length := by
  intro maxV streams
  induction streams with
  | nil =>
    intro q q2 h hlen
    simp only [admitLoop, Option.some.injEq] at h
    subst h
    exact hlen
  | cons s rest ih =>
    intro q q2 h hlen
    match s with
    | [] =>
      simp only [admitLoop] at h
      exact ih q q2 h hlen
    | e :: tail =>
      simp only [admitLoop] at h
      rw [if_pos hlen] at h
      match hmin : extractMin q with
      | none => rw [hmin] at h; simp at h
      | some (worst, qrest) =>
        rw [hmin] at h
        simp only at h
        by_cases hskip : skLe (sortKey e) (qKey worst)
        · rw [if_pos hskip] at h
          exact ih q q2 h hlen
        · rw [if_neg hskip] at h
          refine ih _ q2 h ?_
          have := (extractMin_perm q worst qrest hmin).length_eq
          simp only [List.length_cons] at this
          rw [List.length_append]
          simp only [List.length_singleton]
          omega

theorem admitLoop_lb :
    ∀ (maxV : Nat) (streams : List (List MatchEntry)) (q q2 : List QE) (m : SK),
      admitLoop maxV streams q = some q2 → maxV ≤ q.length →
      (∀ qe ∈ q, skLe m (qKey qe)) →
      ∀ qe ∈ q2, skLe m (qKey qe) := by
  intro maxV streams
  induction streams with
  | nil =>
    intro q q2 m h _ hlb
    simp only [admitLoop, Option.some.injEq] at h
    subst h
    exact hlb
  | cons s rest ih =>
    intro q q2 m h hlen hlb
    match s with
    | [] =>
      simp only [admitLoop] at h
      exact ih q q2 m h hlen hlb
    | e :: tail =>
      simp only [admitLoop] at h
      rw [if_pos hlen] at h
      match hmin : extractMin q with
      | none => rw [hmin] at h; simp at h
      | some (worst, qrest) =>
        rw [hmin] at h
        simp only at h
        have hperm := extractMin_perm q worst qrest hmin
        by_cases hskip : skLe (sortKey e) (qKey worst)
        · rw [if_pos hskip] at h
          exact ih q q2 m h hlen hlb
        · rw [if_neg hskip] at h
          have hnewlen : maxV ≤ (qrest ++ [(e, tail)]).length := by
            have := hperm.length_eq
            simp only [List.length_cons] at this
            rw [List.length_append]
            simp only [List.length_singleton]
            omega
          refine ih _ q2 m h hnewlen ?_
          intro qe hqe
          rcases List.mem_append.1 hqe with hqe | hqe
          · exact hlb qe (hperm.mem_iff.2 (List.mem_cons_of_mem _ hqe))
          · rw [List.mem_singleton] at hqe
            subst hqe
            have hworst : skLe m (qKey worst) :=
              hlb worst (hperm.mem_iff.2 (List.mem_cons_self _ _))
            have helt : skLt (qKey worst) (sortKey e) := by
              by_contra hc
              exact hskip hc
            exact skLe_trans hworst (skLe_of_skLt helt)

theorem entriesOf_push (q : List QE) (e : MatchEntry) (tail : List MatchEntry) :
    entriesOf (q ++ [(e, tail)]) = entriesOf q ++ (e :: tail) := by
  simp [entriesOf]

theorem admitLoop_conserve :
    ∀ (maxV : Nat) (streams : List (List MatchEntry)) (q q2 : List QE),
      admitLoop maxV streams q = some q2 →
      (∀ s ∈ streams, List.Pairwise entGe s) → qSorted q →
      ∃ D : List MatchEntry,
        (entriesOf q2 ++ D).Perm (entriesOf q ++ streams.flatMap id) ∧
        (∀ d ∈ D, ∀ qe ∈ q2, skLe (sortKey d) (qKey qe)) ∧
        (D ≠ [] → maxV ≤ q2.length) := by
  intro maxV streams
  induction streams with
  | nil =>
    intro q q2 h _ _
    simp only [admitLoop, Option.some.injEq] at h
    subst h
    exact ⟨[], by simp, by simp, by simp⟩
  | cons s rest ih =>
    intro q q2 h hs hq
    have hs_rest : ∀ t ∈ rest, List.Pairwise entGe t :=
      fun t ht => hs t (List.mem_cons_of_mem _ ht)
    match s with
    | [] =>
      simp only [admitLoop] at h
      obtain ⟨D, hperm, hdom, hlenD⟩ := ih q q2 h hs_rest hq
      refine ⟨D, ?_, hdom, hlenD⟩
      simpa using hperm
    | e :: tail =>
      have hse : List.Pairwise entGe (e :: tail) := hs _ (List.mem_cons_self _ _)
      simp only [admitLoop] at h
      by_cases hfull : maxV ≤ q.length
      · rw [if_pos hfull] at h
        match hmin : extractMin q with
        | none => rw [hmin] at h; simp at h
        | some (worst, qrest) =>
          rw [hmin] at h
          simp only at h
          have hqperm := extractMin_perm q worst qrest hmin
          have hmin_le := extractMin_min q worst qrest hmin
          by_cases hskip : skLe (sortKey e) (qKey worst)
          · rw [if_pos hskip] at h
            obtain ⟨D, hperm, hdom, hlenD⟩ := ih q q2 h hs_rest hq
            refine ⟨(e :: tail) ++ D, ?_, ?_, ?_⟩
            · rw [List.perm_iff_count]
              intro a
              have hc := hperm.count_eq a
              simp only [List.flatMap_cons, id_eq, List.count_append] at hc ⊢
              omega
            · intro d hd qe hqe
              rcases List.mem_append.1 hd with hd | hd
              · have hde : skLe (sortKey d) (sortKey e) := by
                  rcases List.mem_cons.1 hd with rfl | hd
                  · exact skLe_refl _
                  · exact List.rel_of_pairwise_cons hse hd
                have hlb := admitLoop_lb maxV rest q q2 (sortKey e) h hfull
                  (fun x hx => skLe_trans hskip (hmin_le x hx))
                exact skLe_trans hde (hlb qe hqe)
              · exact hdom d hd qe hqe
            · intro _
              exact admitLoop_len_ge maxV rest q q2 h hfull
          · rw [if_neg hskip] at h
            have helt : skLt (qKey worst) (sortKey e) := by
              by_contra hc
              exact hskip hc
            have hq_new : qSorted (qrest ++ [(e, tail)]) := by
              intro qe hqe
              rcases List.mem_append.1 hqe with hqe | hqe
              · exact hq qe (hqperm.mem_iff.2 (List.mem_cons_of_mem _ hqe))
              · rw [List.mem_singleton] at hqe
                subst hqe
                exact hse
            have hnewlen : maxV ≤ (qrest ++ [(e, tail)]).length := by
              have := hqperm.length_eq
              simp only [List.length_cons] at this
              rw [List.length_append]
              simp only [List.length_singleton]
              omega
            obtain ⟨D, hperm, hdom, hlenD⟩ := ih _ q2 h hs_rest hq_new
            refine ⟨(worst.1 :: worst.2) ++ D, ?_, ?_, ?_⟩
            · rw [List.perm_iff_count]
              intro a
              have hc := hperm.count_eq a
              have hEc := (hqperm.flatMap_right (fun qe => qe.1 :: qe.2)).count_eq a
              rw [entriesOf_push] at hc
              have hwc : entriesOf (worst :: qrest) =
                  (worst.1 :: worst.2) ++ entriesOf qrest := entriesOf_cons _ _
              simp only [entriesOf] at hwc hEc ⊢
              rw [hwc] at hEc
              simp only [List.flatMap_cons, id_eq, List.count_append] at hc hEc ⊢
              simp only [entriesOf, List.count_append] at hc
              omega
            · intro d hd qe hqe
              rcases List.mem_append.1 hd with hd | hd
              · have hws : List.Pairwise entGe (worst.1 :: worst.2) :=
                  hq worst (hqperm.mem_iff.2 (List.mem_cons_self _ _))
                have hdw : skLe (sortKey d) (qKey worst) := by
                  rcases List.mem_cons.1 hd with rfl | hd
                  · exact skLe_refl _
                  · exact List.rel_of_pairwise_cons hws hd
                have hlow : ∀ x ∈ qrest ++ [(e, tail)], skLe (qKey worst) (qKey x) := by
                  intro x hx
                  rcases List.mem_append.1 hx with hx | hx
                  · exact hmin_le x (hqperm.mem_iff.2 (List.mem_cons_of_mem _ hx))
                  · rw [List.mem_singleton] at hx
                    subst hx
                    exact skLe_of_skLt helt
                have hlb := admitLoop_lb maxV rest _ q2 (qKey worst) h hnewlen hlow
                exact skLe_trans hdw (hlb qe hqe)
              · exact hdom d hd qe hqe
            · intro _
              exact admitLoop_len_ge maxV rest _ q2 h hnewlen
      · rw [if_neg hfull] at h
        have hq_new : qSorted (q ++ [(e, tail)]) := by
          intro qe hqe
          rcases List.mem_append.1 hqe with hqe | hqe
          · exact hq qe hqe
          · rw [List.mem_singleton] at hqe
            subst hqe
            exact hse
        obtain ⟨D, hperm, hdom, hlenD⟩ := ih _ q2 h hs_rest hq_new
        refine ⟨D, ?_, hdom, hlenD⟩
        rw [entriesOf_push] at hperm
        simp only [List.flatMap_cons, id_eq]
        rw [← List.append_assoc]
        exact hperm

/-- Strict version of the composite-rank ordering on entries. -/
def entGt (a b : MatchEntry) : Prop := skLt (sortKey b) (sortKey a)

instance : DecidableRel entGt := by unfold entGt; infer_instance

instance : IsAntisymm MatchEntry entGt :=
  ⟨fun _ _ h1 h2 => absurd h1 (skLt_asymm h2)⟩

theorem pairwise_gt_of_ge_keys (l : List MatchEntry)
    (h : List.Pairwise entGe l) (hn : (l.map sortKey).Nodup) :
    List.Pairwise entGt l := by
  have hp : l.Pairwise (fun a b => sortKey a ≠ sortKey b) := by
    rw [List.Nodup, List.pairwise_map] at hn
    exact hn
  exact (h.and hp).imp (fun hab => skLt_of_skLe_of_ne hab.1 (Ne.symm hab.2))

theorem sorted_gt_eq_of_perm (l1 l2 : List MatchEntry) (hp : l1.Perm l2)
    (h1 : List.Pairwise entGt l1) (h2 : List.Pairwise entGt l2) : l1 = l2 :=
  List.eq_of_perm_of_sorted hp h1 h2

theorem heads_le_entries :
    ∀ q : List QE,
      (↑(q.map (fun qe => qe.1)) : Multiset MatchEntry) ≤ ↑(entriesOf q) := by
  intro q
  induction q with
  | nil => simp [entriesOf]
  | cons qe rest ih =>
    rw [List.map_cons, entriesOf_cons]
    have h1 : (↑((qe.1 :: qe.2) ++ entriesOf rest) : Multiset MatchEntry) =
        qe.1 ::ₘ ((↑qe.2 : Multiset MatchEntry) + ↑(entriesOf rest)) := by
      simp
    rw [h1]
    have h2 : (↑(qe.1 :: rest.map (fun qe => qe.1)) : Multiset MatchEntry) =
        qe.1 ::ₘ ↑(rest.map (fun qe => qe.1)) := by
      simp
    rw [h2]
    refine Multiset.cons_le_cons _ ?_
    refine le_trans ih ?_
    exact Multiset.le_add_left _ _

theorem entriesOf_length_ge : ∀ q : List QE, q.length ≤ (entriesOf q).length := by
  intro q
  induction q with
  | nil => simp [entriesOf]
  | cons qe rest ih =>
    rw [entriesOf_cons, List.length_append, List.length_cons]
    simp only [List.length_cons]
    omega

theorem take_eq_of_topk :
    ∀ (K : Nat) (lA lB D : List MatchEntry) (H : Multiset MatchEntry),
      List.Pairwise entGt lA → List.Pairwise entGt lB →
      lA.Perm (lB ++ D) → H ≤ (lB : Multiset MatchEntry) →
      K ≤ Multiset.card H →
      (∀ d ∈ D, ∀ h ∈ H, skLt (sortKey d) (sortKey h)) →
      lA.take K = lB.take K := by
  intro K
  induction K with
  | zero => intro lA lB D H _ _ _ _ _ _; simp
  | succ n ih =>
    intro lA lB D H hA hB hperm hHle hHcard hdom
    have hHne : H ≠ 0 := by
      intro h0
      rw [h0] at hHcard
      simp at hHcard
    obtain ⟨h0, hh0⟩ := Multiset.exists_mem_of_ne_zero hHne
    have hh0B : h0 ∈ lB := Multiset.mem_coe.1 (Multiset.mem_of_le hHle hh0)
    obtain ⟨b, lB2, rfl⟩ : ∃ b lB2, lB = b :: lB2 := by
      cases lB with
      | nil => simp at hh0B
      | cons b lB2 => exact ⟨b, lB2, rfl⟩
    obtain ⟨a, lA2, rfl⟩ : ∃ a lA2, lA = a :: lA2 := by
      cases lA with
      | nil =>
        have := hperm.length_eq
        simp [List.length_append] at this
      | cons a lA2 => exact ⟨a, lA2, rfl⟩
    have haD : a ∉ D := by
      intro haD
      have h0A : h0 ∈ a :: lA2 := hperm.mem_iff.2 (List.mem_append_left _ hh0B)
      have hlt := hdom a haD h0 hh0
      rcases List.mem_cons.1 h0A with rfl | h0A
      · exact skLt_irrefl _ hlt
      · exact skLt_asymm hlt (List.rel_of_pairwise_cons hA h0A)
    have haB : a ∈ b :: lB2 := by
      have : a ∈ (b :: lB2) ++ D := hperm.mem_iff.1 (List.mem_cons_self _ _)
      rcases List.mem_append.1 this with h | h
      · exact h
      · exact absurd h haD
    have hbA : b ∈ a :: lA2 :=
      hperm.symm.mem_iff.1 (List.mem_append_left _ (List.mem_cons_self _ _))
    have hab : a = b := by
      by_contra hne
      have h1 : skLt (sortKey a) (sortKey b) := by
        rcases List.mem_cons.1 haB with h | h
        · exact absurd h hne
        · exact List.rel_of_pairwise_cons hB h
      have h2 : skLt (sortKey b) (sortKey a) := by
        rcases List.mem_cons.1 hbA with h | h
        · exact absurd h.symm hne
        · exact List.rel_of_pairwise_cons hA h
      exact skLt_asymm h1 h2
    subst hab
    have hperm2 : lA2.Perm (lB2 ++ D) := by
      have h1 : (a :: lA2).Perm (a :: (lB2 ++ D)) := by simpa using hperm
      exact h1.cons_inv
    have hH2le : H.erase a ≤ (↑lB2 : Multiset MatchEntry) := by
      have h1 := Multiset.erase_le_erase a hHle
      have h2 : ((↑(a :: lB2) : Multiset MatchEntry)).erase a = ↑lB2 := by
        rw [← Multiset.cons_coe, Multiset.erase_cons_head]
      rw [h2] at h1
      exact h1
    have hH2card : n ≤ Multiset.card (H.erase a) := by
      by_cases hm : a ∈ H
      · rw [Multiset.card_erase_of_mem hm, Nat.pred_eq_sub_one]
        omega
      · rw [Multiset.erase_of_not_mem hm]
        omega
    have hdom2 : ∀ d ∈ D, ∀ h ∈ H.erase a, skLt (sortKey d) (sortKey h) :=
      fun d hd h hh => hdom d hd h (Multiset.mem_of_mem_erase hh)
    have htails := ih lA2 lB2 D (H.erase a) hA.of_cons hB.of_cons hperm2
      hH2le hH2card hdom2
    rw [List.take_succ_cons, List.take_succ_cons, htails]

/-- C1 (amended): top-K correctness of streaming_get_matching holds under two
provisos absent from the spec sentence: every scanned record's decoded stream
is itself non-increasing in the composite rank (relev, scoredist,
matches_language, x, y, id), and the composite ranks of all streamed entries
are pairwise distinct. Then, against an unbounded run (any Kfull at least the
number of streams), the full output is rank-sorted and the bounded run's first
min(K, N) entries equal the top min(K, N) of that full result. Without the
provisos the claim fails, see the recorded counterexample: record streams are
morton-ordered, not rank-ordered, and the admission loop only inspects stream
heads. -/
theorem streaming_topk_of_sorted_streams
    (pr_fn : Nat → ℚ → ℚ) (sd_fn : Nat → ℚ → Nat → ℚ → ℚ)
    (gs : GridStore) (mk : MatchKey) (opts : MatchOpts) (K Kfull : Nat)
    (streams : List (List MatchEntry)) (outK outFull : List MatchEntry)
    (hstreams : runStreams pr_fn sd_fn gs mk opts = .ok streams)
    (hsorted : ∀ s ∈ streams, List.Pairwise entGe s)
    (hnodup : ((streams.flatMap id).map sortKey).Nodup)
    (hKfull : streams.length ≤ Kfull)
    (hrunK : streaming_get_matching pr_fn sd_fn gs mk opts K = RunResult.ok outK)
    (hrunF : streaming_get_matching pr_fn sd_fn gs mk opts Kfull = RunResult.ok outFull) :
    List.Pairwise entGe outFull ∧
    outK.take (min K outFull.length) = outFull.take (min K outFull.length) := by
  obtain ⟨s1, qK, hs1, haK, houtK⟩ := run_ok_elim pr_fn sd_fn gs mk opts K outK hrunK
  obtain ⟨s2, qF, hs2, haF, houtF⟩ := run_ok_elim pr_fn sd_fn gs mk opts Kfull outFull hrunF
  rw [hstreams] at hs1 hs2
  simp only [Except.ok.injEq] at hs1 hs2
  subst hs1
  subst hs2
  subst houtK
  subst houtF
  have hqnil : qSorted ([] : List QE) := by
    intro qe hqe
    simp at hqe
  have hqK : qSorted qK := admitLoop_elems_sorted K streams [] qK haK hsorted hqnil
  have hqF : qSorted qF := admitLoop_elems_sorted Kfull streams [] qF haF hsorted hqnil
  have permK : (drain qK).Perm (entriesOf qK) := drain_perm qK
  have sortedK : List.Pairwise entGe (drain qK) := drain_sorted qK hqK
  obtain ⟨qF2, haF2, hpermF2⟩ := admitLoop_nofill Kfull streams [] (by simpa using hKfull)
  rw [haF] at haF2
  simp only [Option.some.injEq] at haF2
  subst haF2
  have hpermF : (entriesOf qF).Perm (streams.flatMap id) := by
    simpa [entriesOf] using hpermF2
  have permFull : (drain qF).Perm (streams.flatMap id) := (drain_perm qF).trans hpermF
  have sortedFull : List.Pairwise entGe (drain qF) := drain_sorted qF hqF
  have nodupFull : ((drain qF).map sortKey).Nodup :=
    ((permFull.map sortKey).nodup_iff).2 hnodup
  have strictFull : List.Pairwise entGt (drain qF) :=
    pairwise_gt_of_ge_keys _ sortedFull nodupFull
  obtain ⟨D, hconsperm0, hdom, hDlen⟩ := admitLoop_conserve K streams [] qK haK hsorted hqnil
  have hconsperm : (entriesOf qK ++ D).Perm (streams.flatMap id) := by
    simpa using hconsperm0
  have nodupKD : ((entriesOf qK ++ D).map sortKey).Nodup :=
    ((hconsperm.map sortKey).nodup_iff).2 hnodup
  have nodupK : ((drain qK).map sortKey).Nodup := by
    have h1 : ((entriesOf qK).map sortKey).Nodup := by
      rw [List.map_append] at nodupKD
      exact nodupKD.of_append_left
    exact ((permK.map sortKey).nodup_iff).2 h1
  have strictK : List.Pairwise entGt (drain qK) :=
    pairwise_gt_of_ge_keys _ sortedK nodupK
  by_cases hD : D = []
  · subst hD
    have hAB : (drain qK).Perm (drain qF) := by
      refine permK.trans ?_
      refine List.Perm.trans ?_ permFull.symm
      simpa using hconsperm
    rw [sorted_gt_eq_of_perm _ _ hAB strictK strictFull]
    exact ⟨sortedFull, rfl⟩
  · have hKlen : K ≤ qK.length := hDlen hD
    have hHle : (↑(qK.map (fun qe => qe.1)) : Multiset MatchEntry) ≤
        (↑(drain qK) : Multiset MatchEntry) :=
      le_of_le_of_eq (heads_le_entries qK) (Multiset.coe_eq_coe.2 permK.symm)
    have hHcard : K ≤ Multiset.card (↑(qK.map (fun qe => qe.1)) : Multiset MatchEntry) := by
      rw [Multiset.coe_card, List.length_map]
      exact hKlen
    have hdisj : List.Disjoint ((entriesOf qK).map sortKey) (D.map sortKey) := by
      have := nodupKD
      rw [List.map_append] at this
      exact List.disjoint_of_nodup_append this
    have hdomH : ∀ d ∈ D, ∀ h ∈ (↑(qK.map (fun qe => qe.1)) : Multiset MatchEntry),
        skLt (sortKey d) (sortKey h) := by
      intro d hd h hh
      rw [Multiset.mem_coe, List.mem_map] at hh
      obtain ⟨qe, hqe, hh⟩ := hh
      have hle : skLe (sortKey d) (sortKey h) := by
        rw [← hh]
        exact hdom d hd qe hqe
      refine skLt_of_skLe_of_ne hle ?_
      intro heq
      have hhm : sortKey h ∈ (entriesOf qK).map sortKey := by
        refine List.mem_map.2 ⟨qe.1, ?_, by rw [hh]⟩
        exact List.mem_flatMap.2 ⟨qe, hqe, List.mem_cons_self _ _⟩
      have hdm : sortKey h ∈ D.map sortKey := by
        rw [← heq]
        exact List.mem_map.2 ⟨d, hd, rfl⟩
      exact hdisj hhm hdm
    have hABperm : (drain qF).Perm (drain qK ++ D) := by
      refine permFull.trans ?_
      exact (hconsperm.symm).trans (permK.append_right D).symm
    have hTK := take_eq_of_topk K (drain qF) (drain qK) D _
      strictFull strictK hABperm hHle hHcard hdomH
    have hKle : K ≤ (drain qF).length := by
      have h1 := hABperm.length_eq
      rw [List.length_append] at h1
      have h2 := permK.length_eq
      have h3 := entriesOf_length_ge qK
      omega
    rw [Nat.min_eq_left hKle]
    exact ⟨sortedFull, hTK.symm⟩

theorem streaming_topk_of_sorted_streams_witness :
    List.Pairwise entGe [entryB1, entryB2] ∧
    [entryB1].take (min 1 [entryB1, entryB2].length) =
      [entryB1, entryB2].take (min 1 [entryB1, entryB2].length) :=
  streaming_topk_of_sorted_streams prZero sdScore gsNoBins mkB optsA 1 2
    [[entryB1], [entryB2]] [entryB1] [entryB1, entryB2] rfl (by decide) (by decide)
    (by decide) (by decide) (by decide)

theorem flatMap_perm_congr {α β : Type} :
    ∀ (l : List α) (f g : α → List β), (∀ a ∈ l, (f a).Perm (g a)) →
      (l.flatMap f).Perm (l.flatMap g) := by
  intro l
  induction l with
  | nil => intro f g _; simp
  | cons x xs ih =>
    intro f g h
    simp only [List.flatMap_cons]
    exact (h x (List.mem_cons_self _ _)).append
      (ih f g (fun a ha => h a (List.mem_cons_of_mem _ ha)))

theorem flatMap_congr_fn {α β : Type} :
    ∀ (l : List α) (f g : α → List β), (∀ a ∈ l, f a = g a) →
      l.flatMap f = l.flatMap g := by
  intro l
  induction l with
  | nil => intro f g _; rfl
  | cons x xs ih =>
    intro f g h
    simp only [List.flatMap_cons]
    rw [h x (List.mem_cons_self _ _), ih f g (fun a ha => h a (List.mem_cons_of_mem _ ha))]

theorem filterMap_flatMap_comm {α β γ : Type} :
    ∀ (l : List α) (g : α → List β) (F : β → Option γ),
      (l.flatMap g).filterMap F = l.flatMap (fun a => (g a).filterMap F) := by
  intro l
  induction l with
  | nil => intro g F; rfl
  | cons x xs ih =>
    intro g F
    simp only [List.flatMap_cons, List.filterMap_append, ih]

theorem filterMap_map_eq_map {α β γ : Type} :
    ∀ (l : List α) (f : α → β) (F : β → Option γ) (h : α → γ),
      (∀ a ∈ l, F (f a) = some (h a)) → (l.map f).filterMap F = l.map h := by
  intro l
  induction l with
  | nil => intro f F h _; rfl
  | cons x xs ih =>
    intro f F h he
    simp only [List.map_cons, List.filterMap_cons, he x (List.mem_cons_self _ _)]
    rw [ih f F h (fun a ha => he a (List.mem_cons_of_mem _ ha))]

theorem filterMap_map_eq_nil {α β γ : Type} :
    ∀ (l : List α) (f : α → β) (F : β → Option γ),
      (∀ a ∈ l, F (f a) = none) → (l.map f).filterMap F = [] := by
  intro l
  induction l with
  | nil => intro f F _; rfl
  | cons x xs ih =>
    intro f F he
    simp only [List.map_cons, List.filterMap_cons, he x (List.mem_cons_self _ _)]
    exact ih f F (fun a ha => he a (List.mem_cons_of_mem _ ha))

theorem flatMap_filter_eq {α β : Type} :
    ∀ (l : List α) (p : α → Bool) (f : α → List β),
      (l.filter p).flatMap f = l.flatMap (fun a => if p a then f a else []) := by
  intro l
  induction l with
  | nil => intro p f; rfl
  | cons x xs ih =>
    intro p f
    by_cases hp : p x
    · rw [List.filter_cons_of_pos hp]
      simp only [List.flatMap_cons, if_pos hp, ih]
    · rw [List.filter_cons_of_neg hp]
      simp only [List.flatMap_cons, if_neg hp, ih]
      simp

theorem pickMin_eq_none {α : Type} (lt : α → α → Bool) :
    ∀ (ls : List (List α)), pickMin lt ls = none → ls.flatMap id = [] := by
  intro ls
  induction ls with
  | nil => intro _; rfl
  | cons l ls2 ih =>
    intro h
    match l with
    | [] =>
      simp only [pickMin] at h
      match hrec : pickMin lt ls2 with
      | none =>
        simp only [List.flatMap_cons, id_eq, List.nil_append]
        exact ih hrec
      | some (b, tail) => rw [hrec] at h; simp at h
    | x :: xs =>
      simp only [pickMin] at h
      match hrec : pickMin lt ls2 with
      | none => rw [hrec] at h; simp at h
      | some (b, tail) =>
        rw [hrec] at h
        simp only at h
        split at h <;> simp at h

theorem pickMin_perm {α : Type} (lt : α → α → Bool) :
    ∀ (ls : List (List α)) (a : α) (rest : List (List α)),
      pickMin lt ls = some (a, rest) →
      (ls.flatMap id).Perm (a :: rest.flatMap id) := by
  intro ls
  induction ls with
  | nil => intro a rest h; simp [pickMin] at h
  | cons l ls2 ih =>
    intro a rest h
    match l with
    | [] =>
      simp only [pickMin] at h
      match hrec : pickMin lt ls2 with
      | none => rw [hrec] at h; simp at h
      | some (b, tail) =>
        rw [hrec] at h
        simp only [Option.some.injEq, Prod.mk.injEq] at h
        obtain ⟨rfl, rfl⟩ := h
        simp only [List.flatMap_cons, id_eq, List.nil_append]
        exact ih _ _ hrec
    | x :: xs =>
      simp only [pickMin] at h
      match hrec : pickMin lt ls2 with
      | none =>
        rw [hrec] at h
        simp only [Option.some.injEq, Prod.mk.injEq] at h
        obtain ⟨rfl, rfl⟩ := h
        simp only [List.flatMap_cons, id_eq, List.cons_append]
        exact List.Perm.refl _
      | some (b, tail) =>
        rw [hrec] at h
        by_cases hlt : lt b x
        · simp only [hlt, if_true, Option.some.injEq, Prod.mk.injEq] at h
          obtain ⟨rfl, rfl⟩ := h
          simp only [List.flatMap_cons, id_eq]
          refine List.Perm.trans (List.Perm.append_left (x :: xs) (ih _ _ hrec)) ?_
          exact List.perm_middle
        · simp only [hlt, if_false, Option.some.injEq, Prod.mk.injEq] at h
          obtain ⟨rfl, rfl⟩ := h
          simp only [List.flatMap_cons, id_eq, List.cons_append]
          exact List.Perm.refl _

theorem kmergeGo_perm {α : Type} (lt : α → α → Bool) :
    ∀ (fuel : Nat) (ls : List (List α)), (ls.map List.length).sum ≤ fuel →
      (kmergeGo lt fuel ls).Perm (ls.flatMap id) := by
  intro fuel
  induction fuel with
  | zero =>
    intro ls h
    have hlen : (ls.flatMap id).length = 0 := by
      rw [List.length_flatMap]
      have he : ls.map (List.length ∘ id) = ls.map List.length := by simp
      rw [he]
      omega
    rw [List.length_eq_zero.1 hlen]
    simp [kmergeGo]
  | succ n ih =>
    intro ls h
    simp only [kmergeGo]
    match hrec : pickMin lt ls with
    | none =>
      rw [pickMin_eq_none lt ls hrec]
    | some (a, rest) =>
      have htot := pickMin_totalLen lt ls a rest hrec
      refine List.Perm.trans ?_ (pickMin_perm lt ls a rest hrec).symm
      exact (ih rest (by omega)).cons a

theorem kmergeBy_perm {α : Type} (lt : α → α → Bool) (ls : List (List α)) :
    (kmergeBy lt ls).Perm (ls.flatMap id) :=
  kmergeGo_perm lt _ ls (Nat.le_refl _)

theorem sgGo_join {α β : Type} [DecidableEq β] (f : α → β) :
    ∀ (l : List α) (key : β) (acc : List α),
      (sgGo f key acc l).flatMap (fun g => g.2) = acc.reverse ++ l := by
  intro l
  induction l with
  | nil => intro key acc; simp [sgGo]
  | cons x xs ih =>
    intro key acc
    simp only [sgGo]
    by_cases hx : f x = key
    · rw [if_pos hx, ih]
      simp
    · rw [if_neg hx]
      simp only [List.flatMap_cons]
      rw [ih]
      simp

theorem somewhat_eager_groupby_join {α β : Type} [DecidableEq β] (f : α → β)
    (l : List α) : (somewhat_eager_groupby f l).flatMap (fun g => g.2) = l := by
  match l with
  | [] => rfl
  | a :: rest =>
    simp only [somewhat_eager_groupby]
    rw [sgGo_join]
    simp

theorem flatMap_map_eq {α β γ : Type} :
    ∀ (l : List α) (f : α → β) (g : β → List γ),
      (l.map f).flatMap g = l.flatMap (fun a => g (f a)) := by
  intro l
  induction l with
  | nil => intro f g; rfl
  | cons x xs ih =>
    intro f g
    simp only [List.map_cons, List.flatMap_cons, ih]

theorem flatMap_assoc_eq {α β γ : Type} :
    ∀ (l : List α) (f : α → List β) (g : β → List γ),
      (l.flatMap f).flatMap g = l.flatMap (fun a => (f a).flatMap g) := by
  intro l
  induction l with
  | nil => intro f g; rfl
  | cons x xs ih =>
    intro f g
    simp only [List.flatMap_cons, List.flatMap_append, ih]

/-- The strict scoredist comparator the k-way merge of store.rs line 176
runs under. -/
def dmvCmp : CoordTuple → CoordTuple → Bool := fun a b => decide (b.scoredist < a.scoredist)

/-- The coord tuple decode_matching_value builds for one coord of a bucket
(store.rs lines 158-175): distance, within_radius and scoredist from the
proximity point when there is one, or the zero-distance defaults. -/
def dmvTuple (pr_fn : Nat → ℚ → ℚ) (sd_fn : Nat → ℚ → Nat → ℚ → ℚ)
    (match_opts : MatchOpts) (coalesce_radius : ℚ) (score : Nat) (c : Coord) :
    CoordTuple :=
  let xy := deinterleave_morton c.coord
  match match_opts.proximity with
  | some prox_pt =>
    let d := tile_dist prox_pt.1 prox_pt.2 xy.1 xy.2
    { distance := d,
      within_radius := decide (d ≤ pr_fn match_opts.zoom coalesce_radius),
      score := score,
      scoredist := sd_fn match_opts.zoom d score coalesce_radius,
      x := xy.1, y := xy.2, coords_obj := c }
  | none =>
    { distance := 0, within_radius := false, score := score,
      scoredist := (score : ℚ), x := xy.1, y := xy.2, coords_obj := c }

/-- The per-bucket coord-tuple stream of decode_matching_value: the bucket's
coords pass the spatial filter and each survivor becomes a tuple. -/
def dmvStream (pr_fn : Nat → ℚ → ℚ) (sd_fn : Nat → ℚ → Nat → ℚ → ℚ)
    (match_opts : MatchOpts) (coalesce_radius : ℚ) (t : ℚ × Nat × RelevScore) :
    List CoordTuple :=
  let score := t.2.1
  let rs := t.2.2
  let coords :=
    match match_opts.bbox, match_opts.proximity with
    | none, none => rs.coords
    | some bbox, none => bbox_filter rs.coords bbox
    | none, some prox_pt => proximity rs.coords prox_pt
    | some bbox, some prox_pt => bbox_proximity_filter rs.coords bbox prox_pt
  coords.map (dmvTuple pr_fn sd_fn match_opts coalesce_radius score)

/-- The id expansion of decode_matching_value (store.rs lines 186-211): one
match entry per id of the tuple's coord, with the boost of line 195. -/
def dmvExpand (ml : Bool) (relev : ℚ) (ct : CoordTuple) : List MatchEntry :=
  ct.coords_obj.ids.map (fun id_comp =>
    { grid_entry :=
        { relev := qmul relev (if ml || ct.within_radius then 1 else boostFactor),
          score := ct.score, x := ct.x, y := ct.y,
          id := id_comp / 256, source_phrase_hash := id_comp % 256 },
      matches_language := ml,
      distance := ct.distance,
      scoredist := ct.scoredist })

theorem decode_matching_value_eq (pr_fn : Nat → ℚ → ℚ)
    (sd_fn : Nat → ℚ → Nat → ℚ → ℚ) (record : PhraseRecord) (opts : MatchOpts)
    (ml : Bool) (cr : ℚ) :
    decode_matching_value pr_fn sd_fn record opts ml cr =
      (somewhat_eager_groupby (fun t => t.1)
        (record.relev_scores.map (fun rs =>
          (relev_int_to_float (rs.relev_score / 16), rs.relev_score % 16, rs)))).flatMap
        (fun g => (kmergeBy dmvCmp (g.2.map (dmvStream pr_fn sd_fn opts cr))).flatMap
          (dmvExpand ml g.1)) := rfl

/-- One bucket's slice of decode_value: the grid entries of a single
relev_score bucket in on-disk order. -/
def dvBucket (rs : RelevScore) : List GridEntry :=
  rs.coords.flatMap (fun c =>
    c.ids.map (fun id_comp =>
      { relev := relev_int_to_float (rs.relev_score / 16),
        score := rs.relev_score % 16,
        x := (deinterleave_morton c.coord).1,
        y := (deinterleave_morton c.coord).2,
        id := id_comp / 256, source_phrase_hash := id_comp % 256 }))

theorem decode_value_eq (record : PhraseRecord) :
    decode_value record = record.relev_scores.flatMap dvBucket := rfl

/-- The per-entry effect of decode_matching_value: whether one decoded grid
entry survives the spatial filter and, if it does, the match entry it
expands to (the boost of store.rs line 195, the distance and scoredist of
lines 158-175).  Grouping, merging and iteration order change only the
order in which these per-entry results are emitted. -/
def matchEntryOf (pr_fn : Nat → ℚ → ℚ) (sd_fn : Nat → ℚ → Nat → ℚ → ℚ)
    (match_opts : MatchOpts) (ml : Bool) (coalesce_radius : ℚ)
    (g : GridEntry) : Option MatchEntry :=
  if (match match_opts.bbox with
      | none => true
      | some bbox =>
        decide (bbox.1 ≤ g.x ∧ g.x ≤ bbox.2.2.1 ∧ bbox.2.1 ≤ g.y ∧ g.y ≤ bbox.2.2.2)) then
    match match_opts.proximity with
    | some prox_pt =>
      some { grid_entry :=
               { relev := qmul g.relev
                   (if ml || decide (tile_dist prox_pt.1 prox_pt.2 g.x g.y ≤
                       pr_fn match_opts.zoom coalesce_radius) then 1 else boostFactor),
                 score := g.score, x := g.x, y := g.y, id := g.id,
                 source_phrase_hash := g.source_phrase_hash },
             matches_language := ml,
             distance := tile_dist prox_pt.1 prox_pt.2 g.x g.y,
             scoredist := sd_fn match_opts.zoom
               (tile_dist prox_pt.1 prox_pt.2 g.x g.y) g.score coalesce_radius }
    | none =>
      some { grid_entry :=
               { relev := qmul g.relev (if ml || false then 1 else boostFactor),
                 score := g.score, x := g.x, y := g.y, id := g.id,
                 source_phrase_hash := g.source_phrase_hash },
             matches_language := ml,
             distance := 0,
             scoredist := (g.score : ℚ) }
  else none

theorem dmv_bucket_eq (pr_fn : Nat → ℚ → ℚ) (sd_fn : Nat → ℚ → Nat → ℚ → ℚ)
    (opts : MatchOpts) (ml : Bool) (cr : ℚ) (rs : RelevScore) :
    (dvBucket rs).filterMap (matchEntryOf pr_fn sd_fn opts ml cr) =
      (dmvStream pr_fn sd_fn opts cr
        (relev_int_to_float (rs.relev_score / 16), rs.relev_score % 16, rs)).flatMap
        (dmvExpand ml (relev_int_to_float (rs.relev_score / 16))) := by
  obtain ⟨zoom, prox, bbox⟩ := opts
  rw [dvBucket, filterMap_flatMap_comm]
  match bbox, prox with
  | none, none =>
    rw [show dmvStream pr_fn sd_fn ⟨zoom, none, none⟩ cr
        (relev_int_to_float (rs.relev_score / 16), rs.relev_score % 16, rs)
        = rs.coords.map
            (dmvTuple pr_fn sd_fn ⟨zoom, none, none⟩ cr (rs.relev_score % 16))
      from rfl]
    rw [flatMap_map_eq]
    refine flatMap_congr_fn _ _ _ (fun c _ => ?_)
    rw [filterMap_map_eq_map c.ids
      (fun id_comp =>
        ({ relev := relev_int_to_float (rs.relev_score / 16),
           score := rs.relev_score % 16,
           x := (deinterleave_morton c.coord).1,
           y := (deinterleave_morton c.coord).2,
           id := id_comp / 256, source_phrase_hash := id_comp % 256 } : GridEntry))
      (matchEntryOf pr_fn sd_fn ⟨zoom, none, none⟩ ml cr)
      (fun id_comp =>
        ({ grid_entry :=
             { relev := qmul (relev_int_to_float (rs.relev_score / 16))
                 (if ml || false then 1 else boostFactor),
               score := rs.relev_score % 16,
               x := (deinterleave_morton c.coord).1,
               y := (deinterleave_morton c.coord).2,
               id := id_comp / 256, source_phrase_hash := id_comp % 256 },
           matches_language := ml, distance := 0,
           scoredist := ((rs.relev_score % 16 : Nat) : ℚ) } : MatchEntry))
      (fun id_comp h => rfl)]
    rfl
  | none, some pt =>
    rw [show dmvStream pr_fn sd_fn ⟨zoom, some pt, none⟩ cr
        (relev_int_to_float (rs.relev_score / 16), rs.relev_score % 16, rs)
        = rs.coords.map
            (dmvTuple pr_fn sd_fn ⟨zoom, some pt, none⟩ cr (rs.relev_score % 16))
      from rfl]
    rw [flatMap_map_eq]
    refine flatMap_congr_fn _ _ _ (fun c _ => ?_)
    rw [filterMap_map_eq_map c.ids
      (fun id_comp =>
        ({ relev := relev_int_to_float (rs.relev_score / 16),
           score := rs.relev_score % 16,
           x := (deinterleave_morton c.coord).1,
           y := (deinterleave_morton c.coord).2,
           id := id_comp / 256, source_phrase_hash := id_comp % 256 } : GridEntry))
      (matchEntryOf pr_fn sd_fn ⟨zoom, some pt, none⟩ ml cr)
      (fun id_comp =>
        ({ grid_entry :=
             { relev := qmul (relev_int_to_float (rs.relev_score / 16))
                 (if ml || decide (tile_dist pt.1 pt.2 (deinterleave_morton c.coord).1
                     (deinterleave_morton c.coord).2 ≤ pr_fn zoom cr)
                  then 1 else boostFactor),
               score := rs.relev_score % 16,
               x := (deinterleave_morton c.coord).1,
               y := (deinterleave_morton c.coord).2,
               id := id_comp / 256, source_phrase_hash := id_comp % 256 },
           matches_language := ml,
           distance := tile_dist pt.1 pt.2 (deinterleave_morton c.coord).1
             (deinterleave_morton c.coord).2,
           scoredist := sd_fn zoom (tile_dist pt.1 pt.2 (deinterleave_morton c.coord).1
             (deinterleave_morton c.coord).2) (rs.relev_score % 16) cr } : MatchEntry))
      (fun id_comp h => rfl)]
    rfl
  | some bb, none =>
    rw [show dmvStream pr_fn sd_fn ⟨zoom, none, some bb⟩ cr
        (relev_int_to_float (rs.relev_score / 16), rs.relev_score % 16, rs)
        = (bbox_filter rs.coords bb).map
            (dmvTuple pr_fn sd_fn ⟨zoom, none, some bb⟩ cr (rs.relev_score % 16))
      from rfl]
    rw [flatMap_map_eq, bbox_filter, flatMap_filter_eq]
    refine flatMap_congr_fn _ _ _ (fun c _ => ?_)
    cases hd : decide (bb.1 ≤ (deinterleave_morton c.coord).1 ∧
        (deinterleave_morton c.coord).1 ≤ bb.2.2.1 ∧
        bb.2.1 ≤ (deinterleave_morton c.coord).2 ∧
        (deinterleave_morton c.coord).2 ≤ bb.2.2.2) with
    | false =>
      rw [filterMap_map_eq_nil c.ids
        (fun id_comp =>
          ({ relev := relev_int_to_float (rs.relev_score / 16),
             score := rs.relev_score % 16,
             x := (deinterleave_morton c.coord).1,
             y := (deinterleave_morton c.coord).2,
             id := id_comp / 256, source_phrase_hash := id_comp % 256 } : GridEntry))
        (matchEntryOf pr_fn sd_fn ⟨zoom, none, some bb⟩ ml cr)
        (fun id_comp h => by simp [matchEntryOf, hd])]
      simp [hd]
    | true =>
      rw [filterMap_map_eq_map c.ids
        (fun id_comp =>
          ({ relev := relev_int_to_float (rs.relev_score / 16),
             score := rs.relev_score % 16,
             x := (deinterleave_morton c.coord).1,
             y := (deinterleave_morton c.coord).2,
             id := id_comp / 256, source_phrase_hash := id_comp % 256 } : GridEntry))
        (matchEntryOf pr_fn sd_fn ⟨zoom, none, some bb⟩ ml cr)
        (fun id_comp =>
          ({ grid_entry :=
               { relev := qmul (relev_int_to_float (rs.relev_score / 16))
                   (if ml || false then 1 else boostFactor),
                 score := rs.relev_score % 16,
                 x := (deinterleave_morton c.coord).1,
                 y := (deinterleave_morton c.coord).2,
                 id := id_comp / 256, source_phrase_hash := id_comp % 256 },
             matches_language := ml, distance := 0,
             scoredist := ((rs.relev_score % 16 : Nat) : ℚ) } : MatchEntry))
        (fun id_comp h => by simp [matchEntryOf, hd])]
      simp only [hd, if_true]
      rfl
  | some bb, some pt =>
    rw [show dmvStream pr_fn sd_fn ⟨zoom, some pt, some bb⟩ cr
        (relev_int_to_float (rs.relev_score / 16), rs.relev_score % 16, rs)
        = (bbox_filter rs.coords bb).map
            (dmvTuple pr_fn sd_fn ⟨zoom, some pt, some bb⟩ cr (rs.relev_score % 16))
      from rfl]
    rw [flatMap_map_eq, bbox_filter, flatMap_filter_eq]
    refine flatMap_congr_fn _ _ _ (fun c _ => ?_)
    cases hd : decide (bb.1 ≤ (deinterleave_morton c.coord).1 ∧
        (deinterleave_morton c.coord).1 ≤ bb.2.2.1 ∧
        bb.2.1 ≤ (deinterleave_morton c.coord).2 ∧
        (deinterleave_morton c.coord).2 ≤ bb.2.2.2) with
    | false =>
      rw [filterMap_map_eq_nil c.ids
        (fun id_comp =>
          ({ relev := relev_int_to_float (rs.relev_score / 16),
             score := rs.relev_score % 16,
             x := (deinterleave_morton c.coord).1,
             y := (deinterleave_morton c.coord).2,
             id := id_comp / 256, source_phrase_hash := id_comp % 256 } : GridEntry))
        (matchEntryOf pr_fn sd_fn ⟨zoom, some pt, some bb⟩ ml cr)
        (fun id_comp h => by simp [matchEntryOf, hd])]
      simp [hd]
    | true =>
      rw [filterMap_map_eq_map c.ids
        (fun id_comp =>
          ({ relev := relev_int_to_float (rs.relev_score / 16),
             score := rs.relev_score % 16,
             x := (deinterleave_morton c.coord).1,
             y := (deinterleave_morton c.coord).2,
             id := id_comp / 256, source_phrase_hash := id_comp % 256 } : GridEntry))
        (matchEntryOf pr_fn sd_fn ⟨zoom, some pt, some bb⟩ ml cr)
        (fun id_comp =>
          ({ grid_entry :=
               { relev := qmul (relev_int_to_float (rs.relev_score / 16))
                   (if ml || decide (tile_dist pt.1 pt.2 (deinterleave_morton c.coord).1
                       (deinterleave_morton c.coord).2 ≤ pr_fn zoom cr)
                    then 1 else boostFactor),
                 score := rs.relev_score % 16,
                 x := (deinterleave_morton c.coord).1,
                 y := (deinterleave_morton c.coord).2,
                 id := id_comp / 256, source_phrase_hash := id_comp % 256 },
             matches_language := ml,
             distance := tile_dist pt.1 pt.2 (deinterleave_morton c.coord).1
               (deinterleave_morton c.coord).2,
             scoredist := sd_fn zoom (tile_dist pt.1 pt.2 (deinterleave_morton c.coord).1
               (deinterleave_morton c.coord).2) (rs.relev_score % 16) cr } : MatchEntry))
        (fun id_comp h => by simp [matchEntryOf, hd])]
      simp only [hd, if_true]
      rfl

theorem decode_matching_value_perm (pr_fn : Nat → ℚ → ℚ)
    (sd_fn : Nat → ℚ → Nat → ℚ → ℚ) (record : PhraseRecord) (opts : MatchOpts)
    (ml : Bool) (cr : ℚ) :
    (decode_matching_value pr_fn sd_fn record opts ml cr).Perm
      ((decode_value record).filterMap (matchEntryOf pr_fn sd_fn opts ml cr)) := by
  rw [decode_matching_value_eq, decode_value_eq, filterMap_flatMap_comm]
  have h1 : record.relev_scores.flatMap
        (fun rs => (dvBucket rs).filterMap (matchEntryOf pr_fn sd_fn opts ml cr))
      = record.relev_scores.flatMap (fun rs =>
          (dmvStream pr_fn sd_fn opts cr
            (relev_int_to_float (rs.relev_score / 16), rs.relev_score % 16, rs)).flatMap
            (dmvExpand ml (relev_int_to_float (rs.relev_score / 16)))) :=
    flatMap_congr_fn _ _ _ (fun rs _ => dmv_bucket_eq pr_fn sd_fn opts ml cr rs)
  rw [h1]
  have h2 : ((somewhat_eager_groupby (fun t => t.1)
        (record.relev_scores.map (fun rs =>
          (relev_int_to_float (rs.relev_score / 16), rs.relev_score % 16, rs)))).flatMap
        (fun g => (kmergeBy dmvCmp (g.2.map (dmvStream pr_fn sd_fn opts cr))).flatMap
          (dmvExpand ml g.1))).Perm
      ((somewhat_eager_groupby (fun t => t.1)
        (record.relev_scores.map (fun rs =>
          (relev_int_to_float (rs.relev_score / 16), rs.relev_score % 16, rs)))).flatMap
        (fun g => g.2.flatMap (fun t =>
          (dmvStream pr_fn sd_fn opts cr t).flatMap (dmvExpand ml g.1)))) := by
    refine flatMap_perm_congr _ _ _ (fun g _ => ?_)
    refine List.Perm.trans ((kmergeBy_perm dmvCmp _).flatMap_right _) ?_
    rw [flatMap_map_eq]
    simp only [id_eq]
    rw [flatMap_assoc_eq]
  refine List.Perm.trans h2 ?_
  have h3 : ((somewhat_eager_groupby (fun t => t.1)
        (record.relev_scores.map (fun rs =>
          (relev_int_to_float (rs.relev_score / 16), rs.relev_score % 16, rs)))).flatMap
        (fun g => g.2.flatMap (fun t =>
          (dmvStream pr_fn sd_fn opts cr t).flatMap (dmvExpand ml g.1))))
      = ((somewhat_eager_groupby (fun t => t.1)
        (record.relev_scores.map (fun rs =>
          (relev_int_to_float (rs.relev_score / 16), rs.relev_score % 16, rs)))).flatMap
        (fun g => g.2.flatMap (fun t =>
          (dmvStream pr_fn sd_fn opts cr t).flatMap (dmvExpand ml t.1)))) := by
    refine flatMap_congr_fn _ _ _ (fun g hg => ?_)
    obtain ⟨k, grp⟩ := g
    refine flatMap_congr_fn _ _ _ (fun t ht => ?_)
    rw [(somewhat_eager_groupby_mem (fun t => t.1) _ k grp hg t ht).2]
  rw [h3]
  rw [show ((somewhat_eager_groupby (fun t => t.1)
        (record.relev_scores.map (fun rs =>
          (relev_int_to_float (rs.relev_score / 16), rs.relev_score % 16, rs)))).flatMap
        (fun g => g.2.flatMap (fun t =>
          (dmvStream pr_fn sd_fn opts cr t).flatMap (dmvExpand ml t.1))))
      = (((somewhat_eager_groupby (fun t => t.1)
        (record.relev_scores.map (fun rs =>
          (relev_int_to_float (rs.relev_score / 16), rs.relev_score % 16, rs)))).flatMap
        (fun g => g.2)).flatMap (fun t =>
          (dmvStream pr_fn sd_fn opts cr t).flatMap (dmvExpand ml t.1)))
    from (flatMap_assoc_eq _ _ _).symm]
  rw [somewhat_eager_groupby_join, flatMap_map_eq]

theorem collectStreams_eq_map (pr_fn : Nat → ℚ → ℚ) (sd_fn : Nat → ℚ → Nat → ℚ → ℚ)
    (ql : Nat) (marker : TypeMarker) (fs fe : Nat) (opts : MatchOpts) (cr : ℚ) :
    ∀ (kvs : List KV) (streams : List (List MatchEntry)) (ml : Bool),
      collectStreams pr_fn sd_fn ql marker fs fe opts cr kvs = .ok streams →
      (∀ kv ∈ visitedKVs marker fs fe kvs, matches_language ql kv.key = .ok ml) →
      streams = (visitedKVs marker fs fe kvs).map
        (fun kv => decode_matching_value pr_fn sd_fn kv.value opts ml cr) := by
  intro kvs
  induction kvs with
  | nil =>
    intro streams ml h _
    simp only [collectStreams, Except.ok.injEq] at h
    subst h
    rfl
  | cons kv rest ih =>
    intro streams ml h hml
    simp only [collectStreams] at h
    match hk : matches_key marker fs fe kv.key with
    | .error u => rw [hk] at h; simp at h
    | .ok false =>
      rw [hk] at h
      simp only [Except.ok.injEq] at h
      subst h
      have hv : visitedKVs marker fs fe (kv :: rest) = [] := by
        simp [visitedKVs, List.takeWhile_cons, hk]
      rw [hv]
      rfl
    | .ok true =>
      rw [hk] at h
      simp only at h
      have hv : visitedKVs marker fs fe (kv :: rest) =
          kv :: visitedKVs marker fs fe rest := by
        simp [visitedKVs, List.takeWhile_cons, hk]
      match hl : matches_language ql kv.key with
      | .error u => rw [hl] at h; simp at h
      | .ok ml2 =>
        rw [hl] at h
        simp only at h
        match hrec : collectStreams pr_fn sd_fn ql marker fs fe opts cr rest with
        | .error u => rw [hrec] at h; simp at h
        | .ok streams2 =>
          rw [hrec] at h
          simp only [Except.ok.injEq] at h
          subst h
          have hml2 : ml2 = ml := by
            have hh := hml kv (by rw [hv]; exact List.mem_cons_self _ _)
            rw [hl] at hh
            simp only [Except.ok.injEq] at hh
            exact hh
          subst hml2
          rw [hv, List.map_cons]
          rw [ih streams2 ml2 hrec
            (fun k hk2 => hml k (by rw [hv]; exact List.mem_cons_of_mem _ hk2))]

/-- Modelled from the spec: the builder invariant of section 4.G under the
amended claim's disjointness proviso.  Section 4.G guarantees that every
prefix-bin record decodes to the merged-and-deduplicated union of the
single-phrase records of its bin; when that union is disjoint — no
(relev, score, x, y, id) entry is shared between two single-phrase records
of the range — merging-and-deduplicating is the plain multiset union, so
the decoded contents of the records the bin-mode scan visits are a
permutation of the decoded contents of the records the single-phrase scan
visits. -/
def binContentsInvariant (binKVs singleKVs : List KV) : Prop :=
  (binKVs.flatMap (fun kv => decode_value kv.value)).Perm
    (singleKVs.flatMap (fun kv => decode_value kv.value))

/-- C3 amended: for a prefix-aligned range (both endpoints in the loaded bin
table) over one store obeying the section 4.G builder invariant with a
disjoint union, a query with bins loaded and the same query without bins
yield the same multiset of entries under equal matches_language flags,
provided max_values is at least the number of records either scan visits.
Grouping into records changes only emission order and admission packaging:
every emitted entry is the image of one decoded grid entry under the same
per-entry filter-boost map on both sides.  Equality of the streams in
order fails, and with a small max_values even the multisets differ, as the
counterexample shows. -/
theorem bin_equivalence_multiset (pr_fn : Nat → ℚ → ℚ)
    (sd_fn : Nat → ℚ → Nat → ℚ → ℚ) (gs1 gs2 : GridStore) (mk : MatchKey)
    (opts : MatchOpts) (s e : Nat) (maxV : Nat) (ml : Bool)
    (streams1 streams2 : List (List MatchEntry))
    (hphrase : mk.match_phrase = .Range s e)
    (hbins1 : s ∈ gs1.bin_boundaries ∧ e ∈ gs1.bin_boundaries)
    (hbins2 : gs2.bin_boundaries = [])
    (hsame : gs1.store = gs2.store)
    (hcr : gs1.coalesce_radius = gs2.coalesce_radius)
    (hc1 : runStreams pr_fn sd_fn gs1 mk opts = .ok streams1)
    (hc2 : runStreams pr_fn sd_fn gs2 mk opts = .ok streams2)
    (hml1 : ∀ kv ∈ visitedOf gs1 mk, matches_language mk.lang_set kv.key = .ok ml)
    (hml2 : ∀ kv ∈ visitedOf gs2 mk, matches_language mk.lang_set kv.key = .ok ml)
    (hinv : binContentsInvariant (visitedOf gs1 mk) (visitedOf gs2 mk))
    (hlen1 : streams1.length ≤ maxV) (hlen2 : streams2.length ≤ maxV) :
    ∃ out1 out2,
      streaming_get_matching pr_fn sd_fn gs1 mk opts maxV = .ok out1 ∧
      streaming_get_matching pr_fn sd_fn gs2 mk opts maxV = .ok out2 ∧
      out1.Perm out2 := by
  have hc1e : collectStreams pr_fn sd_fn mk.lang_set (fpOf gs1 mk).2.2 (fpOf gs1 mk).1
      (fpOf gs1 mk).2.1 opts gs1.coalesce_radius (scannedKVs gs1 mk) = .ok streams1 := hc1
  have hc2e : collectStreams pr_fn sd_fn mk.lang_set (fpOf gs2 mk).2.2 (fpOf gs2 mk).1
      (fpOf gs2 mk).2.1 opts gs2.coalesce_radius (scannedKVs gs2 mk) = .ok streams2 := hc2
  have hj1 := collectStreams_eq_map pr_fn sd_fn mk.lang_set (fpOf gs1 mk).2.2
    (fpOf gs1 mk).1 (fpOf gs1 mk).2.1 opts gs1.coalesce_radius (scannedKVs gs1 mk)
    streams1 ml hc1e hml1
  have hj2 := collectStreams_eq_map pr_fn sd_fn mk.lang_set (fpOf gs2 mk).2.2
    (fpOf gs2 mk).1 (fpOf gs2 mk).2.1 opts gs2.coalesce_radius (scannedKVs gs2 mk)
    streams2 ml hc2e hml2
  have hjoin : (streams1.flatMap id).Perm (streams2.flatMap id) := by
    rw [hj1, hj2, flatMap_map_eq, flatMap_map_eq]
    simp only [id_eq]
    refine List.Perm.trans (flatMap_perm_congr _ _
      (fun kv => (decode_value kv.value).filterMap
        (matchEntryOf pr_fn sd_fn opts ml gs1.coalesce_radius))
      (fun kv _ => decode_matching_value_perm pr_fn sd_fn kv.value opts ml
        gs1.coalesce_radius)) ?_
    refine List.Perm.trans ?_ (flatMap_perm_congr _
      (fun (kv : KV) => (decode_value kv.value).filterMap
        (matchEntryOf pr_fn sd_fn opts ml gs2.coalesce_radius))
      (fun (kv : KV) => decode_matching_value pr_fn sd_fn kv.value opts ml
        gs2.coalesce_radius)
      (fun kv _ => (decode_matching_value_perm pr_fn sd_fn kv.value opts ml
        gs2.coalesce_radius).symm))
    rw [← hcr]
    rw [← filterMap_flatMap_comm, ← filterMap_flatMap_comm]
    exact hinv.filterMap _
  obtain ⟨q1, hq1, hp1⟩ := admitLoop_nofill maxV streams1 [] (by simpa using hlen1)
  obtain ⟨q2, hq2, hp2⟩ := admitLoop_nofill maxV streams2 [] (by simpa using hlen2)
  refine ⟨drain q1, drain q2, ?_, ?_, ?_⟩
  · rw [streaming_eq_run, hc1]
    simp only
    rw [hq1]
  · rw [streaming_eq_run, hc2]
    simp only
    rw [hq2]
  · have e1 : (entriesOf q1).Perm (streams1.flatMap id) := by simpa using hp1
    have e2p : (entriesOf q2).Perm (streams2.flatMap id) := by simpa using hp2
    exact ((drain_perm q1).trans (e1.trans (hjoin.trans e2p.symm))).trans
      (drain_perm q2).symm

/-- One store holding both the single-phrase records of the range 5 to 7
and their pre-merged prefix-bin record, as the builder writes them. -/
def dualStore : List KV := [kvB5, kvB6, kvBbin]

/-- The reader over dualStore with the bin table loaded. -/
def gsDualBins : GridStore :=
  { store := dualStore, bin_boundaries := [5, 7], zoom := 6, type_id := 0,
    coalesce_radius := 0, bboxes := [], max_score := 0 }

/-- The reader over dualStore without the bin table. -/
def gsDualNoBins : GridStore :=
  { store := dualStore, bin_boundaries := [], zoom := 6, type_id := 0,
    coalesce_radius := 0, bboxes := [], max_score := 0 }

theorem bin_equivalence_multiset_witness :
    ∃ out1 out2,
      streaming_get_matching prZero sdScore gsDualBins mkB optsA 2 = .ok out1 ∧
      streaming_get_matching prZero sdScore gsDualNoBins mkB optsA 2 = .ok out2 ∧
      out1.Perm out2 :=
  bin_equivalence_multiset prZero sdScore gsDualBins gsDualNoBins mkB optsA 5 7 2 true
    [[entryB1, entryB2]] [[entryB1], [entryB2]]
    rfl (by decide) rfl rfl rfl rfl rfl
    (by
      intro kv hk
      have hv : visitedOf gsDualBins mkB = [kvBbin] := rfl
      rw [hv, List.mem_singleton] at hk
      subst hk
      rfl)
    (by
      intro kv hk
      have hv : visitedOf gsDualNoBins mkB = [kvB5, kvB6] := rfl
      rw [hv] at hk
      rcases List.mem_cons.1 hk with rfl | hk
      · rfl
      · rw [List.mem_singleton] at hk
        subst hk
        rfl)
    (by
      show ((visitedOf gsDualBins mkB).flatMap (fun kv => decode_value kv.value)).Perm
        ((visitedOf gsDualNoBins mkB).flatMap (fun kv => decode_value kv.value))
      have h : ((visitedOf gsDualBins mkB).flatMap (fun kv => decode_value kv.value))
          = ((visitedOf gsDualNoBins mkB).flatMap (fun kv => decode_value kv.value)) := by
        decide
      rw [h])
    (by decide) (by decide)
